import Mathlib

/-!
# Verification of the `catch` archive subsystem

A shallow embedding of the archive encoder (`save_to_db`) and decoder
(`load_from_db`) from `src/main.rs`, together with theorems settling the
frozen claims about them.

Modelling conventions:
* Rust strings and file contents are modelled as `List Char`; the
  operations the source uses (`lines`, `contains`, `starts_with`,
  `split_once`, `trim`, `split_whitespace`, `u8::from_str_radix`,
  `format!` of decimal / octal / zero-padded upper hex) are translated
  into executable Lean functions below, faithful to the Rust semantics
  on the character sets that can actually occur.  Whitespace is the
  ASCII fragment of Rust `char::is_whitespace`.
* Bytes are `Nat`; the `u8` range enters through `u8::from_str_radix`'s
  overflow check (values above 255 are rejected) and through hypotheses
  `b < 256` on encoder inputs.
* The archive file is a `List Char` threaded through the writes of
  `save_to_db` (append mode: the new text is written after the existing
  content; a missing file corresponds to the empty list).
* `load_from_db` returns `Option (List Nat)`: `some payload` for the
  `Ok(())` path (on which the payload is written to the output file) and
  `none` for the `ErrorKind::NotFound` return.  `load_run` additionally
  threads the content of the output destination to express the frame
  property that a failed lookup never touches it.
-/

namespace Catch

/-- ASCII fragment of Rust `char::is_whitespace`. -/
def isWS (c : Char) : Bool :=
  c = ' ' || c = '\t' || c = '\n' || c = '\x0b' || c = '\x0c' || c = '\r'

/-- Rust `str::starts_with`: `hasPrefixL pat l` is true when `pat` is an
initial segment of `l`. -/
def hasPrefixL : List Char → List Char → Bool
  | [], _ => true
  | _ :: _, [] => false
  | p :: ps, c :: cs => p == c && hasPrefixL ps cs

/-- Rust `str::contains` with a string pattern: substring search. -/
def hasInfixL (pat : List Char) : List Char → Bool
  | [] => hasPrefixL pat []
  | c :: cs => hasPrefixL pat (c :: cs) || hasInfixL pat cs

/-- Rust `str::split_once(':')`: split at the first colon, `none` when no
colon occurs. -/
def splitOnceColon : List Char → Option (List Char × List Char)
  | [] => none
  | c :: cs =>
    if c = ':' then some ([], cs)
    else
      match splitOnceColon cs with
      | some (a, b) => some (c :: a, b)
      | none => none

/-- Prepend `x` to the first element of a list of segments. -/
def consHead (x : List Char) : List (List Char) → List (List Char)
  | [] => [x]
  | l :: ls => (x ++ l) :: ls

/-- Split a character stream at every `'\n'`; the result always has one
more segment than there are newline characters (so no segment carries a
`'\n'`, and the final segment is the unterminated tail). -/
def splitNl : List Char → List (List Char)
  | [] => [[]]
  | c :: cs => if c = '\n' then [] :: splitNl cs else consHead [c] (splitNl cs)

/-- Strip one trailing `'\r'` (Rust `lines()` strips `\r\n` as a unit). -/
def stripCR (l : List Char) : List Char :=
  match l.reverse with
  | c :: rest => if c = '\r' then rest.reverse else l
  | [] => l

/-- Rust `BufRead::lines()` over a file content: `'\n'`-terminated lines
with the terminator (and a preceding `'\r'`) removed; a final unterminated
segment is yielded only when nonempty (`'\r'` is not stripped there). -/
def linesOf (s : List Char) : List (List Char) :=
  (splitNl s).dropLast.map stripCR ++
    (match (splitNl s).getLast? with
     | some [] => []
     | some t => [t]
     | none => [])

/-- Accumulator loop of `splitWS`: `acc` holds the reversed characters of
the token currently being read. -/
def splitWSAux : List Char → List Char → List (List Char)
  | [], acc => if acc = [] then [] else [acc.reverse]
  | c :: cs, acc =>
    if isWS c then
      (if acc = [] then splitWSAux cs [] else acc.reverse :: splitWSAux cs [])
    else splitWSAux cs (c :: acc)

/-- Rust `str::split_whitespace`: maximal runs of non-whitespace
characters, in order. -/
def splitWS (l : List Char) : List (List Char) := splitWSAux l []

/-- Rust `str::trim`. -/
def trimWS (l : List Char) : List Char :=
  (((l.dropWhile isWS).reverse.dropWhile isWS).reverse)

/-- Rust `char::to_digit(16)`. -/
def hexVal? (c : Char) : Option Nat :=
  if '0' ≤ c ∧ c ≤ '9' then some (c.toNat - '0'.toNat)
  else if 'a' ≤ c ∧ c ≤ 'f' then some (c.toNat - 'a'.toNat + 10)
  else if 'A' ≤ c ∧ c ≤ 'F' then some (c.toNat - 'A'.toNat + 10)
  else none

/-- Digit accumulation loop of `u8::from_str_radix(_, 16)`: every digit
must be a hex digit and every intermediate value must fit in a `u8`
(the checked multiply/add of the Rust implementation). -/
def parseHexDigitsAux : List Char → Nat → Option Nat
  | [], v => some v
  | c :: cs, v =>
    match hexVal? c with
    | none => none
    | some d =>
      if 255 < v * 16 + d then none else parseHexDigitsAux cs (v * 16 + d)

/-- Rust `u8::from_str_radix(tok, 16)`: an optional leading `'+'`, then a
nonempty run of hex digits whose value fits in a `u8`. -/
def parseHexU8 (t : List Char) : Option Nat :=
  match t with
  | [] => none
  | c :: rest =>
    if c = '+' then
      match rest with
      | [] => none
      | _ :: _ => parseHexDigitsAux rest 0
    else parseHexDigitsAux (c :: rest) 0

/-- The payload-line loop of `load_from_db`: `trim`, `split_whitespace`,
parse each token with `u8::from_str_radix(_, 16)` and keep the successes
in order. -/
def parseHexTokens (s : List Char) : List Nat :=
  (splitWS (trimWS s)).filterMap parseHexU8

/-- Digit character for values `0`–`15` (uppercase letters, as in
Rust `{:X}` / `{:o}` / `Display` for the ranges that occur). -/
def digitChar (d : Nat) : Char :=
  if d < 10 then Char.ofNat ('0'.toNat + d) else Char.ofNat ('A'.toNat + d - 10)

/-- Fuelled digit recursion for `natChars` (the fuel only serves
structural termination; `natChars` supplies enough for any input). -/
def natCharsAux (base : Nat) : Nat → Nat → List Char
  | 0, n => [digitChar n]
  | fuel + 1, n =>
    if n < base ∨ base ≤ 1 then [digitChar n]
    else natCharsAux base fuel (n / base) ++ [digitChar (n % base)]

/-- Positional digits of `n` in base `base` (used at bases 8, 10, 16). -/
def natChars (base : Nat) (n : Nat) : List Char := natCharsAux base n n

/-- Rust `u8::to_string()` (decimal `Display`). -/
def decChars (n : Nat) : List Char := natChars 10 n

/-- Rust `format!("{:o}", b)`: unpadded octal. -/
def octChars (n : Nat) : List Char := natChars 8 n

/-- Rust `format!("{:02X}", b)`: uppercase hex, zero-padded to width 2. -/
def hex2Chars (n : Nat) : List Char :=
  if (natChars 16 n).length < 2 then '0' :: natChars 16 n else natChars 16 n

/-- Rust `Vec::join(" ")`. -/
def joinSpace (xs : List (List Char)) : List Char := List.intercalate [' '] xs

/-- `write!(file, s)`: append without a newline. -/
def writeStr (f s : List Char) : List Char := f ++ s

/-- `writeln!(file, s)`: append followed by `'\n'`. -/
def writeLineF (f s : List Char) : List Char := f ++ s ++ ['\n']

/-- The Standard-variant payload loop of `save_to_db`: for the `i`-th
byte write `"{:02X} "`, and a bare `'\n'` after every 16th byte. -/
def writeDataLoop : List Char → List Nat → Nat → List Char
  | f, [], _ => f
  | f, b :: bs, i =>
    let f1 := writeStr f (hex2Chars b ++ [' '])
    let f2 := if (i + 1) % 16 = 0 then writeStr f1 ['\n'] else f1
    writeDataLoop f2 bs (i + 1)

/-- `save_to_db(dbfile, filename, data, quantum)`: append one entry block
to the archive content `file` (open in create+append mode: prior content
is untouched, an absent file is the empty content). -/
def save_to_db (file : List Char) (filename : List Char) (data : List Nat)
    (quantum : Bool) : List Char :=
  if quantum then
    let f := writeLineF file ("###ENTRY###".toList)
    let f := writeLineF f ("NAME:".toList ++ filename)
    let f := writeLineF f ("SIZE:".toList ++ decChars data.length)
    let f := writeLineF f ("[DEC] ".toList ++ joinSpace (data.map decChars))
    let f := writeLineF f ("[OCT] ".toList ++ joinSpace (data.map octChars))
    let f := writeLineF f ("[HEX] ".toList ++ joinSpace (data.map hex2Chars))
    writeLineF f ("###END###".toList)
  else
    let f := writeLineF file ("---ENTRY---".toList)
    let f := writeLineF f ("NAME:".toList ++ filename)
    let f := writeLineF f ("SIZE:".toList ++ decChars data.length)
    let f := writeStr f ("DATA: ".toList)
    let f := writeDataLoop f data 0
    writeLineF f ("\n---END---".toList)

/-- Decoder scan state: the `inside` flag, the accumulated payload
buffer `collected` and the accumulated `current_name`. -/
structure ScanSt where
  inside : Bool
  collected : List Nat
  current_name : List Char
deriving DecidableEq, Repr

/-- Result of processing one line: early `Ok(())` return carrying the
payload that is written to the output file, or the successor state. -/
inductive StepOut where
  | found (p : List Nat)
  | cont (st : ScanSt)
deriving DecidableEq, Repr

/-- The line-classification body of `load_from_db`'s loop, branch for
branch as in the source. -/
def stepLine (target : List Char) (st : ScanSt) (l : List Char) : StepOut :=
  if hasInfixL ("ENTRY".toList) l then
    .cont ⟨true, [], []⟩
  else if hasPrefixL ("NAME:".toList) l then
    .cont ⟨st.inside, st.collected, ((splitOnceColon l).map Prod.snd).getD []⟩
  else if hasPrefixL ("DATA:".toList) l then
    .cont ⟨st.inside, st.collected ++ parseHexTokens (l.drop 5), st.current_name⟩
  else if hasPrefixL ("[HEX]".toList) l then
    .cont ⟨st.inside, st.collected ++ parseHexTokens (l.drop 5), st.current_name⟩
  else if hasInfixL ("END".toList) l && st.inside then
    if st.current_name = target then .found st.collected
    else .cont ⟨false, st.collected, st.current_name⟩
  else .cont st

/-- Outcome of scanning a list of lines: early success or the state at
end of input. -/
inductive ScanRes where
  | found (p : List Nat)
  | st (s : ScanSt)
deriving DecidableEq, Repr

/-- The `for line in reader.lines()` loop of `load_from_db`. -/
def runScan (target : List Char) : List (List Char) → ScanSt → ScanRes
  | [], st => .st st
  | l :: ls, st =>
    match stepLine target st l with
    | .found p => .found p
    | .cont st' => runScan target ls st'

/-- `load_from_db(dbfile, target, out)` over the archive content:
`some payload` for the success path (the payload is what gets written to
`out`), `none` for the `ErrorKind::NotFound` return. -/
def load_from_db (archive target : List Char) : Option (List Nat) :=
  match runScan target (linesOf archive) ⟨false, [], []⟩ with
  | .found p => some p
  | .st _ => none

/-- The two observable outcomes of `load_from_db` (I/O errors cannot
occur in the embedding; `notFound` is the distinguished
`ErrorKind::NotFound` error). -/
inductive LoadOutcome where
  | success
  | notFound
deriving DecidableEq, Repr

/-- `load_from_db` together with its effect on the output destination:
`File::create(out)` happens only on the success path, so on the
`notFound` path the previous content `outPrev` survives unchanged. -/
def load_run (archive target : List Char) (outPrev : Option (List Nat)) :
    LoadOutcome × Option (List Nat) :=
  match load_from_db archive target with
  | some p => (.success, some p)
  | none => (.notFound, outPrev)

/-! ### Derived descriptions of the encoder output

The following definitions are characterizations of the encoder's output,
proved equal to it below; they expose the line structure the decoder
sees. -/

/-- The character stream `writeDataLoop` emits when `r` more bytes remain
until the next 16-byte wrap (`r = 16 - i % 16`). -/
def bodyAux : List Nat → Nat → List Char
  | [], _ => []
  | b :: bs, r =>
    hex2Chars b ++ [' '] ++ (if r ≤ 1 then '\n' :: bodyAux bs 16 else bodyAux bs (r - 1))

/-- The `'\n'`-split segments of `bodyAux d r`; the final element is the
trailing unterminated segment. -/
def bodyLines : List Nat → Nat → List (List Char)
  | [], _ => [[]]
  | b :: bs, r =>
    if r ≤ 1 then (hex2Chars b ++ [' ']) :: bodyLines bs 16
    else consHead (hex2Chars b ++ [' ']) (bodyLines bs (r - 1))

/-- The lines of one Standard-variant entry block, as the decoder reads
them back. -/
def stdBlockLines (n : List Char) (d : List Nat) : List (List Char) :=
  "---ENTRY---".toList :: ("NAME:".toList ++ n) ::
    ("SIZE:".toList ++ decChars d.length) ::
    (consHead ("DATA: ".toList) (bodyLines d 16) ++ ["---END---".toList])

/-- The lines of one Quantum-variant entry block. -/
def qBlockLines (n : List Char) (d : List Nat) : List (List Char) :=
  ["###ENTRY###".toList,
   "NAME:".toList ++ n,
   "SIZE:".toList ++ decChars d.length,
   "[DEC] ".toList ++ joinSpace (d.map decChars),
   "[OCT] ".toList ++ joinSpace (d.map octChars),
   "[HEX] ".toList ++ joinSpace (d.map hex2Chars),
   "###END###".toList]

/-- A line that matches none of the decoder's handled tags or markers:
processing it leaves the scan state untouched. -/
def neutralLine (l : List Char) : Bool :=
  !hasInfixL ("ENTRY".toList) l && !hasPrefixL ("NAME:".toList) l &&
    !hasPrefixL ("DATA:".toList) l && !hasPrefixL ("[HEX]".toList) l &&
    !hasInfixL ("END".toList) l

/-- A name the encoder can store in a single well-formed `NAME:` line
(no line break, no trailing-`'\r'` ambiguity, and the line is not
mistaken for a start marker by the decoder's substring test). -/
def goodName (n : List Char) : Prop :=
  '\n' ∉ n ∧ '\r' ∉ n ∧ hasInfixL ("ENTRY".toList) ("NAME:".toList ++ n) = false

instance goodNameDecidable (n : List Char) : Decidable (goodName n) := by
  unfold goodName
  infer_instance

/-- An archive produced by a sequence of `save_to_db` calls
(name, payload, quantum flag) against an initially absent file. -/
def buildArchive (es : List (List Char × List Nat × Bool)) : List Char :=
  es.foldl (fun f e => save_to_db f e.1 e.2.1 e.2.2) []

/-- The characters that can occur in a numeric token written by the
encoder (octal and decimal tokens use the initial sixteen-character
alphabet's first ten letters). -/
def hexDigits : List Char := "0123456789ABCDEF".toList

/-! ### Basic lemmas on the string model -/

theorem hasPrefixL_nil (l : List Char) : hasPrefixL [] l = true := by
  cases l <;> rfl

theorem hasPrefixL_append_self (p x : List Char) : hasPrefixL p (p ++ x) = true := by
  induction p with
  | nil => exact hasPrefixL_nil x
  | cons c cs ih => simp [hasPrefixL, ih]

theorem hasPrefixL_head (p : Char) (ps l : List Char)
    (h : hasPrefixL (p :: ps) l = true) :
    ∃ cs, l = p :: cs ∧ hasPrefixL ps cs = true := by
  cases l with
  | nil => simp [hasPrefixL] at h
  | cons c cs =>
    simp only [hasPrefixL, Bool.and_eq_true, beq_iff_eq] at h
    exact ⟨cs, by rw [h.1], h.2⟩

theorem hasPrefixL_mem {p l : List Char} (h : hasPrefixL p l = true) :
    ∀ c ∈ p, c ∈ l := by
  induction p generalizing l with
  | nil => intro c hc; simp at hc
  | cons x xs ih =>
    obtain ⟨cs, rfl, h'⟩ := hasPrefixL_head x xs l h
    intro c hc
    rcases List.mem_cons.mp hc with rfl | hc
    · exact List.mem_cons_self _ _
    · exact List.mem_cons_of_mem _ (ih h' c hc)

theorem hasInfixL_mem {p l : List Char} (h : hasInfixL p l = true) :
    ∀ c ∈ p, c ∈ l := by
  induction l with
  | nil => exact hasPrefixL_mem h
  | cons x xs ih =>
    simp only [hasInfixL, Bool.or_eq_true] at h
    rcases h with h | h
    · exact hasPrefixL_mem h
    · intro c hc; exact List.mem_cons_of_mem _ (ih h c hc)

theorem hasInfixL_eq_false_of_not_mem {p l : List Char} {c : Char}
    (hc : c ∈ p) (hl : c ∉ l) : hasInfixL p l = false := by
  cases h : hasInfixL p l with
  | false => rfl
  | true => exact absurd (hasInfixL_mem h c hc) hl

theorem consHead_nil_list (a : List Char) : consHead a [] = [a] := rfl

theorem consHead_cons (a x : List Char) (xs : List (List Char)) :
    consHead a (x :: xs) = (a ++ x) :: xs := rfl

theorem consHead_ne_nil (a : List Char) (ls : List (List Char)) :
    consHead a ls ≠ [] := by
  cases ls <;> simp [consHead]

theorem consHead_nil_str {S : List (List Char)} (h : S ≠ []) :
    consHead [] S = S := by
  cases S with
  | nil => exact absurd rfl h
  | cons x xs => simp [consHead]

theorem consHead_consHead (a b : List Char) (S : List (List Char)) :
    consHead a (consHead b S) = consHead (a ++ b) S := by
  cases S <;> simp [consHead]

theorem consHead_append (a : List Char) {xs : List (List Char)}
    (ys : List (List Char)) (h : xs ≠ []) :
    consHead a (xs ++ ys) = consHead a xs ++ ys := by
  cases xs with
  | nil => exact absurd rfl h
  | cons x xs' => simp [consHead]

theorem splitNl_ne_nil (l : List Char) : splitNl l ≠ [] := by
  induction l with
  | nil => simp [splitNl]
  | cons c cs ih =>
    simp only [splitNl]
    split
    · simp
    · exact consHead_ne_nil _ _

theorem splitNl_cons_nl (b : List Char) : splitNl ('\n' :: b) = [] :: splitNl b := by
  simp [splitNl]

theorem splitNl_cons_other {c : Char} (b : List Char) (hc : ¬(c = '\n')) :
    splitNl (c :: b) = consHead [c] (splitNl b) := by
  simp [splitNl, hc]

theorem splitNl_append_no_nl {a : List Char} (b : List Char) (h : '\n' ∉ a) :
    splitNl (a ++ b) = consHead a (splitNl b) := by
  induction a with
  | nil => rw [List.nil_append, consHead_nil_str (splitNl_ne_nil b)]
  | cons c cs ih =>
    have hc : ¬(c = '\n') := fun hh => h (hh ▸ List.mem_cons_self c cs)
    have hcs : '\n' ∉ cs := fun hh => h (List.mem_cons_of_mem _ hh)
    rw [List.cons_append, splitNl_cons_other _ hc, ih hcs, consHead_consHead,
      List.singleton_append]

theorem splitNl_append_nl {a : List Char} (b : List Char) (h : '\n' ∉ a) :
    splitNl (a ++ '\n' :: b) = a :: splitNl b := by
  rw [splitNl_append_no_nl _ h, splitNl_cons_nl, consHead_cons, List.append_nil]

theorem splitNl_append_eq (a b : List Char) :
    splitNl (a ++ b) =
      (splitNl a).dropLast ++ consHead ((splitNl a).getLastD []) (splitNl b) := by
  induction a with
  | nil =>
    rw [List.nil_append]
    have e0 : splitNl [] = [[]] := rfl
    have e1 : ([[]] : List (List Char)).dropLast = [] := rfl
    have e2 : ([[]] : List (List Char)).getLastD [] = [] := rfl
    rw [e0, e1, e2, List.nil_append, consHead_nil_str (splitNl_ne_nil b)]
  | cons c cs ih =>
    by_cases hc : c = '\n'
    · subst hc
      rw [List.cons_append, splitNl_cons_nl, splitNl_cons_nl, ih]
      cases hS : splitNl cs with
      | nil => exact absurd hS (splitNl_ne_nil cs)
      | cons s ss => simp [List.getLastD_cons]
    · rw [List.cons_append, splitNl_cons_other _ hc, splitNl_cons_other _ hc, ih]
      cases hS : splitNl cs with
      | nil => exact absurd hS (splitNl_ne_nil cs)
      | cons s ss =>
        cases ss with
        | nil =>
          have e1 : ([s] : List (List Char)).dropLast = [] := rfl
          have e2 : ([s] : List (List Char)).getLastD [] = s := rfl
          have e3 : consHead [c] [s] = [c :: s] := by
            rw [consHead_cons, List.singleton_append]
          have e4 : ([c :: s] : List (List Char)).dropLast = [] := rfl
          have e5 : ([c :: s] : List (List Char)).getLastD [] = c :: s := rfl
          rw [e1, e2, e3, e4, e5, List.nil_append, List.nil_append,
            consHead_consHead, List.singleton_append]
        | cons t ts =>
          simp only [List.dropLast_cons₂, consHead_cons, List.singleton_append,
            List.cons_append, List.getLastD_cons]

theorem splitWSAux_acc (l : List Char) :
    ∀ acc, acc ≠ [] → splitWSAux l acc =
      (acc.reverse ++ l.takeWhile (fun d => !isWS d)) ::
        splitWS (l.dropWhile (fun d => !isWS d)) := by
  induction l with
  | nil =>
    intro acc h
    simp [splitWSAux, h, splitWS]
  | cons c cs ih =>
    intro acc h
    by_cases hc : isWS c = true
    · have hnc : (fun d => !isWS d) c = false := by simp [hc]
      rw [List.takeWhile_cons, List.dropWhile_cons]
      simp only [hnc, if_false, Bool.false_eq_true]
      have : splitWSAux (c :: cs) acc = acc.reverse :: splitWSAux cs [] := by
        simp [splitWSAux, hc, h]
      rw [this]
      have : splitWS (c :: cs) = splitWS cs := by simp [splitWS, splitWSAux, hc]
      rw [this, List.append_nil]
      rfl
    · have hb : isWS c = false := by simpa using hc
      have hnc : (fun d => !isWS d) c = true := by simp [hb]
      rw [List.takeWhile_cons, List.dropWhile_cons]
      simp only [hnc, if_true]
      have : splitWSAux (c :: cs) acc = splitWSAux cs (c :: acc) := by
        simp [splitWSAux, hb]
      rw [this, ih (c :: acc) (by simp)]
      simp

theorem splitWS_cons_ws {c : Char} (cs : List Char) (h : isWS c = true) :
    splitWS (c :: cs) = splitWS cs := by
  simp [splitWS, splitWSAux, h]

theorem splitWS_cons_tok {c : Char} (cs : List Char) (h : isWS c = false) :
    splitWS (c :: cs) =
      (c :: cs.takeWhile (fun d => !isWS d)) ::
        splitWS (cs.dropWhile (fun d => !isWS d)) := by
  have : splitWS (c :: cs) = splitWSAux cs [c] := by simp [splitWS, splitWSAux, h]
  rw [this, splitWSAux_acc cs [c] (by simp)]
  rfl

theorem takeDrop_token {a : List Char} (x : Char) (r : List Char)
    (ha : ∀ c ∈ a, isWS c = false) (hx : isWS x = true) :
    (a ++ x :: r).takeWhile (fun d => !isWS d) = a ∧
      (a ++ x :: r).dropWhile (fun d => !isWS d) = x :: r := by
  induction a with
  | nil => simp [List.takeWhile_cons, List.dropWhile_cons, hx]
  | cons c cs ih =>
    have hc : isWS c = false := ha c (List.mem_cons_self _ _)
    have hcs : ∀ c ∈ cs, isWS c = false := fun d hd => ha d (List.mem_cons_of_mem _ hd)
    obtain ⟨ht, hd⟩ := ih hcs
    constructor
    · rw [List.cons_append, List.takeWhile_cons]
      simp [hc, ht]
    · rw [List.cons_append, List.dropWhile_cons]
      simp [hc, hd]

theorem takeDrop_all {a : List Char} (ha : ∀ c ∈ a, isWS c = false) :
    a.takeWhile (fun d => !isWS d) = a ∧ a.dropWhile (fun d => !isWS d) = [] := by
  induction a with
  | nil => simp
  | cons c cs ih =>
    have hc : isWS c = false := ha c (List.mem_cons_self _ _)
    have hcs : ∀ c ∈ cs, isWS c = false := fun d hd => ha d (List.mem_cons_of_mem _ hd)
    obtain ⟨ht, hd⟩ := ih hcs
    constructor
    · rw [List.takeWhile_cons]; simp [hc, ht]
    · rw [List.dropWhile_cons]; simp [hc, hd]

theorem splitWS_token {t : List Char} (r : List Char) (hne : t ≠ [])
    (ht : ∀ c ∈ t, isWS c = false) :
    splitWS (t ++ ' ' :: r) = t :: splitWS r := by
  cases t with
  | nil => exact absurd rfl hne
  | cons c cs =>
    have hc : isWS c = false := ht c (List.mem_cons_self _ _)
    have hcs : ∀ d ∈ cs, isWS d = false := fun d hd => ht d (List.mem_cons_of_mem _ hd)
    obtain ⟨htk, hdr⟩ := takeDrop_token ' ' r hcs (by decide)
    rw [List.cons_append, splitWS_cons_tok _ hc, htk, hdr,
      splitWS_cons_ws _ (by decide)]

theorem splitWS_single {t : List Char} (hne : t ≠ [])
    (ht : ∀ c ∈ t, isWS c = false) : splitWS t = [t] := by
  cases t with
  | nil => exact absurd rfl hne
  | cons c cs =>
    have hc : isWS c = false := ht c (List.mem_cons_self _ _)
    have hcs : ∀ d ∈ cs, isWS d = false := fun d hd => ht d (List.mem_cons_of_mem _ hd)
    obtain ⟨htk, hdr⟩ := takeDrop_all hcs
    rw [splitWS_cons_tok _ hc, htk, hdr]
    rfl

theorem splitWSAux_all_ws {w : List Char} (hw : ∀ c ∈ w, isWS c = true) :
    ∀ acc, splitWSAux w acc = if acc = [] then [] else [acc.reverse] := by
  induction w with
  | nil => intro acc; rfl
  | cons c cs ih =>
    intro acc
    have hc : isWS c = true := hw c (List.mem_cons_self _ _)
    have hcs : ∀ d ∈ cs, isWS d = true := fun d hd => hw d (List.mem_cons_of_mem _ hd)
    by_cases ha : acc = []
    · subst ha; simp [splitWSAux, hc, ih hcs]
    · simp [splitWSAux, hc, ha, ih hcs]

theorem splitWSAux_append_ws {w : List Char} (hw : ∀ c ∈ w, isWS c = true) :
    ∀ (l : List Char) (acc : List Char), splitWSAux (l ++ w) acc = splitWSAux l acc := by
  intro l
  induction l with
  | nil =>
    intro acc
    rw [List.nil_append, splitWSAux_all_ws hw acc]
    rfl
  | cons c cs ih =>
    intro acc
    rw [List.cons_append]
    by_cases hc : isWS c = true
    · by_cases ha : acc = []
      · subst ha; simp [splitWSAux, hc, ih]
      · simp [splitWSAux, hc, ha, ih]
    · have hb : isWS c = false := by simpa using hc
      simp [splitWSAux, hb, ih]

theorem splitWS_append_ws {w : List Char} (hw : ∀ c ∈ w, isWS c = true)
    (l : List Char) : splitWS (l ++ w) = splitWS l :=
  splitWSAux_append_ws hw l []

theorem splitWS_dropWhile_ws (l : List Char) :
    splitWS (l.dropWhile isWS) = splitWS l := by
  induction l with
  | nil => rfl
  | cons c cs ih =>
    rw [List.dropWhile_cons]
    by_cases hc : isWS c = true
    · simp only [hc, if_true]
      rw [ih, splitWS_cons_ws _ hc]
    · have hb : isWS c = false := by simpa using hc
      simp [hb]

theorem splitWS_trimWS (l : List Char) : splitWS (trimWS l) = splitWS l := by
  unfold trimWS
  set m := l.dropWhile isWS with hm
  have hdecomp : m = (m.reverse.dropWhile isWS).reverse ++ (m.reverse.takeWhile isWS).reverse := by
    have : m.reverse.takeWhile isWS ++ m.reverse.dropWhile isWS = m.reverse :=
      List.takeWhile_append_dropWhile isWS m.reverse
    calc m = m.reverse.reverse := (List.reverse_reverse m).symm
    _ = (m.reverse.takeWhile isWS ++ m.reverse.dropWhile isWS).reverse := by rw [this]
    _ = (m.reverse.dropWhile isWS).reverse ++ (m.reverse.takeWhile isWS).reverse := by
        rw [List.reverse_append]
  have hws : ∀ c ∈ (m.reverse.takeWhile isWS).reverse, isWS c = true := by
    intro c hc
    exact List.mem_takeWhile_imp (List.mem_reverse.mp hc)
  calc splitWS ((m.reverse.dropWhile isWS).reverse)
      = splitWS ((m.reverse.dropWhile isWS).reverse ++ (m.reverse.takeWhile isWS).reverse) :=
        (splitWS_append_ws hws _).symm
    _ = splitWS m := by rw [← hdecomp]
    _ = splitWS l := splitWS_dropWhile_ws l

theorem joinSpace_cons_cons (x y : List Char) (zs : List (List Char)) :
    joinSpace (x :: y :: zs) = x ++ ' ' :: joinSpace (y :: zs) := by
  simp [joinSpace, List.intercalate, List.intersperse]

theorem joinSpace_singleton (x : List Char) : joinSpace [x] = x := by
  simp [joinSpace, List.intercalate, List.intersperse]

theorem splitWS_joinSpace {toks : List (List Char)}
    (h : ∀ t ∈ toks, t ≠ [] ∧ ∀ c ∈ t, isWS c = false) :
    splitWS (joinSpace toks) = toks := by
  induction toks with
  | nil => rfl
  | cons t ts ih =>
    cases ts with
    | nil =>
      rw [joinSpace_singleton]
      obtain ⟨hne, hch⟩ := h t (List.mem_cons_self _ _)
      exact splitWS_single hne hch
    | cons t2 ts2 =>
      rw [joinSpace_cons_cons]
      obtain ⟨hne, hch⟩ := h t (List.mem_cons_self _ _)
      rw [splitWS_token _ hne hch,
        ih (fun u hu => h u (List.mem_cons_of_mem _ hu))]

theorem stripCR_eq_self {l : List Char} (h : '\r' ∉ l) : stripCR l = l := by
  unfold stripCR
  cases hr : l.reverse with
  | nil => rfl
  | cons c rest =>
    have hc : c ∈ l := by
      rw [← List.mem_reverse, hr]; exact List.mem_cons_self _ _
    have : ¬(c = '\r') := fun hh => h (hh ▸ hc)
    simp [this]

/-! ### Digit rendering and hex parsing -/

theorem digitChar_mem_hexDigits {d : Nat} (h : d < 16) : digitChar d ∈ hexDigits := by
  interval_cases d <;> decide

theorem hexDigits_char_facts :
    ∀ c ∈ hexDigits, isWS c = false ∧ c ≠ '\n' ∧ c ≠ '\r' ∧ c ≠ 'N' ∧ c ≠ '+' := by
  decide

theorem natCharsAux_small {base fuel n : Nat} (h : n < base) :
    natCharsAux base fuel n = [digitChar n] := by
  cases fuel with
  | zero => rfl
  | succ f => simp [natCharsAux, h]

theorem natCharsAux_ne_nil (base : Nat) : ∀ fuel n, natCharsAux base fuel n ≠ [] := by
  intro fuel n
  cases fuel with
  | zero => simp [natCharsAux]
  | succ f =>
    rw [natCharsAux]
    split
    · simp
    · simp

theorem natCharsAux_mem {base : Nat} (h2 : 2 ≤ base) (h16 : base ≤ 16) :
    ∀ fuel n, n ≤ fuel → ∀ c ∈ natCharsAux base fuel n, c ∈ hexDigits := by
  intro fuel
  induction fuel with
  | zero =>
    intro n hn c hc
    have : n = 0 := by omega
    subst this
    have : c = digitChar 0 := by simpa [natCharsAux] using hc
    subst this
    exact digitChar_mem_hexDigits (by omega)
  | succ f ih =>
    intro n hn c hc
    by_cases hb : n < base
    · have : c = digitChar n := by simpa [natCharsAux, hb] using hc
      subst this
      exact digitChar_mem_hexDigits (by omega)
    · have hcond : ¬(n < base ∨ base ≤ 1) := by omega
      rw [natCharsAux, if_neg hcond] at hc
      rcases List.mem_append.mp hc with hc | hc
      · have hdiv : n / base < n := Nat.div_lt_self (by omega) (by omega)
        exact ih (n / base) (by omega) c hc
      · have : c = digitChar (n % base) := by simpa using hc
        subst this
        have hmod : n % base < base := Nat.mod_lt n (by omega)
        exact digitChar_mem_hexDigits (by omega)

theorem natChars_mem {base n : Nat} (h2 : 2 ≤ base) (h16 : base ≤ 16) :
    ∀ c ∈ natChars base n, c ∈ hexDigits :=
  natCharsAux_mem h2 h16 n n (Nat.le_refl n)

theorem natChars_ne_nil (base n : Nat) : natChars base n ≠ [] :=
  natCharsAux_ne_nil base n n

theorem hex2Chars_mem (b : Nat) : ∀ c ∈ hex2Chars b, c ∈ hexDigits := by
  intro c hc
  unfold hex2Chars at hc
  split at hc
  · rcases List.mem_cons.mp hc with rfl | hc
    · decide
    · exact natChars_mem (by omega) (by omega) c hc
  · exact natChars_mem (by omega) (by omega) c hc

theorem hex2Chars_ne_nil (b : Nat) : hex2Chars b ≠ [] := by
  unfold hex2Chars
  split
  · simp
  · exact natChars_ne_nil 16 b

theorem hexVal?_digitChar {d : Nat} (h : d < 16) : hexVal? (digitChar d) = some d := by
  interval_cases d <;> decide

theorem natChars16_lt {b : Nat} (h : b < 16) : natChars 16 b = [digitChar b] := by
  unfold natChars
  cases b with
  | zero => rfl
  | succ k => simp [natCharsAux, h]

theorem hex2Chars_eq {b : Nat} (h : b < 256) :
    hex2Chars b = [digitChar (b / 16), digitChar (b % 16)] := by
  by_cases hb : b < 16
  · have h0 : b / 16 = 0 := Nat.div_eq_of_lt hb
    have hm : b % 16 = b := Nat.mod_eq_of_lt hb
    unfold hex2Chars
    rw [natChars16_lt hb, h0, hm]
    have : (digitChar 0) = '0' := by decide
    simp [this]
  · have hcond : ¬(b < 16 ∨ 16 ≤ 1) := by omega
    have hq : b / 16 < 16 := by omega
    obtain ⟨k, rfl⟩ : ∃ k, b = k + 1 := ⟨b - 1, by omega⟩
    have hself : natChars 16 (k + 1) =
        [digitChar ((k + 1) / 16), digitChar ((k + 1) % 16)] := by
      unfold natChars
      rw [natCharsAux, if_neg hcond, natCharsAux_small hq]
      rfl
    unfold hex2Chars
    rw [hself]
    simp

theorem hex2Chars_length {b : Nat} (h : b < 256) : (hex2Chars b).length = 2 := by
  rw [hex2Chars_eq h]; rfl

theorem parseHexU8_cons {c : Char} (rest : List Char) (h : ¬(c = '+')) :
    parseHexU8 (c :: rest) = parseHexDigitsAux (c :: rest) 0 := by
  simp [parseHexU8, h]

theorem parseHexDigitsAux_cons (c : Char) (cs : List Char) (v : Nat) :
    parseHexDigitsAux (c :: cs) v =
      (hexVal? c).bind
        (fun d => if 255 < v * 16 + d then none else parseHexDigitsAux cs (v * 16 + d)) := by
  cases hv : hexVal? c <;> simp [parseHexDigitsAux, hv]

theorem parseHex_hex2 {b : Nat} (h : b < 256) : parseHexU8 (hex2Chars b) = some b := by
  rw [hex2Chars_eq h]
  have h1 : b / 16 < 16 := by omega
  have h2 : b % 16 < 16 := by omega
  have hne : ¬(digitChar (b / 16) = '+') := by
    have hm := digitChar_mem_hexDigits h1
    exact (hexDigits_char_facts _ hm).2.2.2.2
  rw [parseHexU8_cons _ hne, parseHexDigitsAux_cons, hexVal?_digitChar h1,
    Option.some_bind]
  have e1 : ¬(255 < 0 * 16 + b / 16) := by omega
  rw [if_neg e1, parseHexDigitsAux_cons, hexVal?_digitChar h2, Option.some_bind]
  have e3 : (0 * 16 + b / 16) * 16 + b % 16 = b := by omega
  rw [e3]
  have e4 : ¬(255 < b) := by omega
  rw [if_neg e4]
  rfl

theorem linesOf_append_endNl (a b : List Char) :
    linesOf ((a ++ ['\n']) ++ b) = linesOf (a ++ ['\n']) ++ linesOf b := by
  have hS : splitNl (a ++ ['\n']) =
      ((splitNl a).dropLast ++ [(splitNl a).getLastD []]) ++ [[]] := by
    rw [splitNl_append_eq]
    have : splitNl (['\n'] : List Char) = [[], []] := by simp [splitNl]
    rw [this, consHead_cons, List.append_nil]
    simp
  have hSb : splitNl ((a ++ ['\n']) ++ b) =
      ((splitNl a).dropLast ++ [(splitNl a).getLastD []]) ++ splitNl b := by
    rw [List.append_assoc, List.singleton_append, splitNl_append_eq,
      splitNl_cons_nl, consHead_cons, List.append_nil,
      List.append_cons (splitNl a).dropLast]
  have hTne := splitNl_ne_nil b
  have hTlast : (splitNl b).getLast? = some ((splitNl b).getLast hTne) :=
    List.getLast?_eq_getLast_of_ne_nil hTne
  unfold linesOf
  rw [hS, hSb]
  rw [List.dropLast_concat, List.getLast?_concat,
    List.dropLast_append_of_ne_nil _ hTne,
    List.getLast?_append_of_ne_nil _ hTne, hTlast]
  simp only [List.map_append]
  cases hlast : (splitNl b).getLast hTne with
  | nil => simp
  | cons x xs => simp

/-! ### Encoder structure -/

theorem writeDataLoop_eq_bodyAux : ∀ (d : List Nat) (f : List Char) (i : Nat),
    writeDataLoop f d i = f ++ bodyAux d (16 - i % 16) := by
  intro d
  induction d with
  | nil => intro f i; simp [writeDataLoop, bodyAux]
  | cons b bs ih =>
    intro f i
    have hstep : writeDataLoop f (b :: bs) i =
        writeDataLoop
          (if (i + 1) % 16 = 0 then (f ++ (hex2Chars b ++ [' '])) ++ ['\n']
           else f ++ (hex2Chars b ++ [' '])) bs (i + 1) := by
      rw [writeDataLoop]
      by_cases hm : (i + 1) % 16 = 0 <;> simp [writeStr, hm]
    rw [hstep]
    by_cases hm : i % 16 = 15
    · have h0 : (i + 1) % 16 = 0 := by omega
      have hr : 16 - i % 16 = 1 := by omega
      rw [if_pos h0, ih, h0, hr]
      simp [bodyAux]
    · have hlt : i % 16 < 15 := by
        have := Nat.mod_lt i (show 0 < 16 by omega)
        omega
      have h1 : (i + 1) % 16 = i % 16 + 1 := by omega
      have h0 : ¬((i + 1) % 16 = 0) := by omega
      have hr : ¬(16 - i % 16 ≤ 1) := by omega
      have hr2 : 16 - (i % 16 + 1) = 16 - i % 16 - 1 := by omega
      rw [if_neg h0, ih, h1, hr2]
      simp [bodyAux, hr]

theorem bodyLines_ne_nil (d : List Nat) (r : Nat) : bodyLines d r ≠ [] := by
  cases d with
  | nil => simp [bodyLines]
  | cons b bs =>
    rw [bodyLines]
    split
    · simp
    · exact consHead_ne_nil _ _

theorem nl_not_mem_tok (b : Nat) : '\n' ∉ hex2Chars b ++ [' '] := by
  intro hc
  rcases List.mem_append.mp hc with hc | hc
  · exact absurd rfl (hexDigits_char_facts _ (hex2Chars_mem b _ hc)).2.1
  · simp at hc

theorem splitNl_bodyAux : ∀ (d : List Nat) (r : Nat) (X : List Char),
    splitNl (bodyAux d r ++ '\n' :: X) = bodyLines d r ++ splitNl X := by
  intro d
  induction d with
  | nil =>
    intro r X
    rw [bodyAux, bodyLines, List.nil_append, splitNl_cons_nl]
    rfl
  | cons b bs ih =>
    intro r X
    by_cases hr : r ≤ 1
    · rw [bodyAux, bodyLines, if_pos hr, if_pos hr]
      have : (hex2Chars b ++ [' '] ++ ('\n' :: bodyAux bs 16)) ++ '\n' :: X =
          (hex2Chars b ++ [' ']) ++ '\n' :: (bodyAux bs 16 ++ '\n' :: X) := by
        simp [List.append_assoc]
      rw [this, splitNl_append_nl _ (nl_not_mem_tok b), ih]
      rfl
    · rw [bodyAux, bodyLines, if_neg hr, if_neg hr]
      have : (hex2Chars b ++ [' '] ++ bodyAux bs (r - 1)) ++ '\n' :: X =
          (hex2Chars b ++ [' ']) ++ (bodyAux bs (r - 1) ++ '\n' :: X) := by
        simp [List.append_assoc]
      rw [this, splitNl_append_no_nl _ (nl_not_mem_tok b), ih,
        consHead_append _ _ (bodyLines_ne_nil bs (r - 1))]

theorem forall_mem_consHead {P : Char → Prop} {a : List Char}
    {ls : List (List Char)} (ha : ∀ c ∈ a, P c)
    (hls : ∀ l ∈ ls, ∀ c ∈ l, P c) :
    ∀ l ∈ consHead a ls, ∀ c ∈ l, P c := by
  cases ls with
  | nil =>
    intro l hl c hc
    rw [consHead_nil_list] at hl
    rcases List.mem_singleton.mp hl with rfl
    exact ha c hc
  | cons x xs =>
    intro l hl c hc
    rw [consHead_cons] at hl
    rcases List.mem_cons.mp hl with rfl | hl
    · rcases List.mem_append.mp hc with hc | hc
      · exact ha c hc
      · exact hls x (List.mem_cons_self _ _) c hc
    · exact hls l (List.mem_cons_of_mem _ hl) c hc

theorem bodyLines_charset : ∀ (d : List Nat) (r : Nat),
    ∀ l ∈ bodyLines d r, ∀ c ∈ l, c = ' ' ∨ c ∈ hexDigits := by
  intro d
  induction d with
  | nil =>
    intro r l hl c hc
    rw [bodyLines] at hl
    rcases List.mem_singleton.mp hl with rfl
    simp at hc
  | cons b bs ih =>
    intro r l hl c hc
    have htok : ∀ c ∈ hex2Chars b ++ [' '], c = ' ' ∨ c ∈ hexDigits := by
      intro c hc
      rcases List.mem_append.mp hc with hc | hc
      · exact Or.inr (hex2Chars_mem b _ hc)
      · simp at hc; exact Or.inl hc
    rw [bodyLines] at hl
    by_cases hr : r ≤ 1
    · rw [if_pos hr] at hl
      rcases List.mem_cons.mp hl with rfl | hl
      · exact htok c hc
      · exact ih 16 l hl c hc
    · rw [if_neg hr] at hl
      exact forall_mem_consHead htok (ih (r - 1)) l hl c hc

theorem map_stripCR_id {L : List (List Char)} (h : ∀ l ∈ L, '\r' ∉ l) :
    L.map stripCR = L := by
  induction L with
  | nil => rfl
  | cons x xs ih =>
    rw [List.map_cons, stripCR_eq_self (h x (List.mem_cons_self _ _)),
      ih (fun l hl => h l (List.mem_cons_of_mem _ hl))]

theorem mem_joinSpace {c : Char} : ∀ {xs : List (List Char)},
    c ∈ joinSpace xs → c = ' ' ∨ ∃ x ∈ xs, c ∈ x := by
  intro xs
  induction xs with
  | nil => intro h; simp [joinSpace, List.intercalate] at h
  | cons t ts ih =>
    cases ts with
    | nil =>
      intro h
      rw [joinSpace_singleton] at h
      exact Or.inr ⟨t, List.mem_singleton.mpr rfl, h⟩
    | cons t2 ts2 =>
      intro h
      rw [joinSpace_cons_cons] at h
      rcases List.mem_append.mp h with h | h
      · exact Or.inr ⟨t, List.mem_cons_self _ _, h⟩
      · rcases List.mem_cons.mp h with rfl | h
        · exact Or.inl rfl
        · rcases ih h with h | ⟨x, hx, hcx⟩
          · exact Or.inl h
          · exact Or.inr ⟨x, List.mem_cons_of_mem _ hx, hcx⟩

theorem save_std_eq (f n : List Char) (d : List Nat) :
    save_to_db f n d false =
      f ++ ("---ENTRY---".toList ++ '\n' ::
        (("NAME:".toList ++ n) ++ '\n' ::
          (("SIZE:".toList ++ decChars d.length) ++ '\n' ::
            ("DATA: ".toList ++ (bodyAux d 16 ++ '\n' ::
              ("---END---".toList ++ ['\n'])))))) := by
  have hEnd : "\n---END---".toList = ['\n'] ++ "---END---".toList := by decide
  show writeLineF (writeDataLoop (writeStr (writeLineF (writeLineF (writeLineF f
    ("---ENTRY---".toList)) ("NAME:".toList ++ n)) ("SIZE:".toList ++ decChars d.length))
    ("DATA: ".toList)) d 0) ("\n---END---".toList) = _
  rw [writeDataLoop_eq_bodyAux]
  simp [writeLineF, writeStr, hEnd, List.append_assoc]

theorem save_q_eq (f n : List Char) (d : List Nat) :
    save_to_db f n d true =
      f ++ ("###ENTRY###".toList ++ '\n' ::
        (("NAME:".toList ++ n) ++ '\n' ::
          (("SIZE:".toList ++ decChars d.length) ++ '\n' ::
            (("[DEC] ".toList ++ joinSpace (d.map decChars)) ++ '\n' ::
              (("[OCT] ".toList ++ joinSpace (d.map octChars)) ++ '\n' ::
                (("[HEX] ".toList ++ joinSpace (d.map hex2Chars)) ++ '\n' ::
                  ("###END###".toList ++ ['\n']))))))) := by
  show writeLineF (writeLineF (writeLineF (writeLineF (writeLineF (writeLineF
    (writeLineF f ("###ENTRY###".toList)) ("NAME:".toList ++ n))
    ("SIZE:".toList ++ decChars d.length))
    ("[DEC] ".toList ++ joinSpace (d.map decChars)))
    ("[OCT] ".toList ++ joinSpace (d.map octChars)))
    ("[HEX] ".toList ++ joinSpace (d.map hex2Chars))) ("###END###".toList) = _
  simp [writeLineF, List.append_assoc]

theorem mem_joinSpace_map {d : List Nat} {g : Nat → List Char}
    (hg : ∀ (b : Nat), ∀ c ∈ g b, c ∈ hexDigits) :
    ∀ c ∈ joinSpace (d.map g), c = ' ' ∨ c ∈ hexDigits := by
  intro c hc
  rcases mem_joinSpace hc with h | ⟨x, hx, hcx⟩
  · exact Or.inl h
  · obtain ⟨b, _, rfl⟩ := List.mem_map.mp hx
    exact Or.inr (hg b c hcx)

theorem nl_not_mem_decChars {k : Nat} : '\n' ∉ decChars k := by
  intro h
  exact absurd rfl (hexDigits_char_facts _ (natChars_mem (by omega) (by omega) _ h)).2.1

theorem cr_not_mem_decChars {k : Nat} : '\r' ∉ decChars k := by
  intro h
  exact absurd rfl (hexDigits_char_facts _ (natChars_mem (by omega) (by omega) _ h)).2.2.1

theorem linesOf_save_std {n : List Char} (d : List Nat)
    (hn : '\n' ∉ n) (hr : '\r' ∉ n) :
    linesOf (save_to_db [] n d false) = stdBlockLines n d := by
  rw [save_std_eq, List.nil_append]
  have hE : '\n' ∉ "---ENTRY---".toList := by decide
  have hNM : '\n' ∉ "NAME:".toList ++ n := by
    intro h
    rcases List.mem_append.mp h with h | h
    · simp at h
    · exact hn h
  have hSZ : '\n' ∉ "SIZE:".toList ++ decChars d.length := by
    intro h
    rcases List.mem_append.mp h with h | h
    · simp at h
    · exact nl_not_mem_decChars h
  have hDA : '\n' ∉ "DATA: ".toList := by decide
  have hEN : '\n' ∉ "---END---".toList := by decide
  unfold linesOf
  rw [splitNl_append_nl _ hE, splitNl_append_nl _ hNM, splitNl_append_nl _ hSZ,
    splitNl_append_no_nl _ hDA, splitNl_bodyAux, splitNl_append_nl _ hEN]
  have e0 : splitNl [] = [[]] := rfl
  rw [e0, consHead_append _ _ (bodyLines_ne_nil d 16)]
  set X : List (List Char) := "---ENTRY---".toList :: ("NAME:".toList ++ n) ::
    ("SIZE:".toList ++ decChars d.length) ::
    (consHead ("DATA: ".toList) (bodyLines d 16) ++ ["---END---".toList]) with hX
  have hS : "---ENTRY---".toList :: ("NAME:".toList ++ n) ::
      ("SIZE:".toList ++ decChars d.length) ::
      (consHead ("DATA: ".toList) (bodyLines d 16) ++ ["---END---".toList, []]) =
      X ++ [[]] := by
    rw [hX]
    simp
  rw [hS, List.dropLast_concat, List.getLast?_concat]
  have hXCR : ∀ l ∈ X, '\r' ∉ l := by
    intro l hl
    rw [hX] at hl
    rcases List.mem_cons.mp hl with rfl | hl
    · decide
    rcases List.mem_cons.mp hl with rfl | hl
    · intro h
      rcases List.mem_append.mp h with h | h
      · simp at h
      · exact hr h
    rcases List.mem_cons.mp hl with rfl | hl
    · intro h
      rcases List.mem_append.mp h with h | h
      · simp at h
      · exact cr_not_mem_decChars h
    rcases List.mem_append.mp hl with hl | hl
    · have hDAcr : ∀ c ∈ "DATA: ".toList, c ≠ '\r' := by decide
      have htlcr : ∀ l' ∈ bodyLines d 16, ∀ c ∈ l', c ≠ '\r' :=
        fun l' hl' c hc => by
          rcases bodyLines_charset d 16 l' hl' c hc with h | h
          · subst h; decide
          · exact (hexDigits_char_facts _ h).2.2.1
      have := forall_mem_consHead hDAcr htlcr l hl
      intro hcr
      exact this '\r' hcr rfl
    · rcases List.mem_singleton.mp hl with rfl
      decide
  rw [map_stripCR_id hXCR]
  rw [stdBlockLines, hX]
  simp

theorem linesOf_save_q {n : List Char} (d : List Nat)
    (hn : '\n' ∉ n) (hr : '\r' ∉ n) :
    linesOf (save_to_db [] n d true) = qBlockLines n d := by
  rw [save_q_eq, List.nil_append]
  have hE : '\n' ∉ "###ENTRY###".toList := by decide
  have hNM : '\n' ∉ "NAME:".toList ++ n := by
    intro h
    rcases List.mem_append.mp h with h | h
    · simp at h
    · exact hn h
  have hSZ : '\n' ∉ "SIZE:".toList ++ decChars d.length := by
    intro h
    rcases List.mem_append.mp h with h | h
    · simp at h
    · exact nl_not_mem_decChars h
  have hline : ∀ (tag : List Char) (g : Nat → List Char),
      '\n' ∉ tag → (∀ (b : Nat), ∀ c ∈ g b, c ∈ hexDigits) →
      '\n' ∉ tag ++ joinSpace (d.map g) := by
    intro tag g htag hg h
    rcases List.mem_append.mp h with h | h
    · exact htag h
    · rcases mem_joinSpace_map hg _ h with h | h
      · simp at h
      · exact absurd rfl (hexDigits_char_facts _ h).2.1
  have hDEC : '\n' ∉ "[DEC] ".toList ++ joinSpace (d.map decChars) :=
    hline _ _ (by decide) (fun b => natChars_mem (by omega) (by omega))
  have hOCT : '\n' ∉ "[OCT] ".toList ++ joinSpace (d.map octChars) :=
    hline _ _ (by decide) (fun b => natChars_mem (by omega) (by omega))
  have hHEX : '\n' ∉ "[HEX] ".toList ++ joinSpace (d.map hex2Chars) :=
    hline _ _ (by decide) (fun b => hex2Chars_mem b)
  have hEN : '\n' ∉ "###END###".toList := by decide
  unfold linesOf
  rw [splitNl_append_nl _ hE, splitNl_append_nl _ hNM, splitNl_append_nl _ hSZ,
    splitNl_append_nl _ hDEC, splitNl_append_nl _ hOCT, splitNl_append_nl _ hHEX,
    splitNl_append_nl _ hEN]
  have e0 : splitNl [] = [[]] := rfl
  rw [e0]
  have hcrline : ∀ (tag : List Char) (g : Nat → List Char),
      '\r' ∉ tag → (∀ (b : Nat), ∀ c ∈ g b, c ∈ hexDigits) →
      '\r' ∉ tag ++ joinSpace (d.map g) := by
    intro tag g htag hg h
    rcases List.mem_append.mp h with h | h
    · exact htag h
    · rcases mem_joinSpace_map hg _ h with h | h
      · simp at h
      · exact absurd rfl (hexDigits_char_facts _ h).2.2.1
  have hS : ("###ENTRY###".toList :: ("NAME:".toList ++ n) ::
      ("SIZE:".toList ++ decChars d.length) ::
      ("[DEC] ".toList ++ joinSpace (d.map decChars)) ::
      ("[OCT] ".toList ++ joinSpace (d.map octChars)) ::
      ("[HEX] ".toList ++ joinSpace (d.map hex2Chars)) ::
      ("###END###".toList : List Char) :: [[]] : List (List Char)) =
      qBlockLines n d ++ [[]] := by
    rw [qBlockLines]
    rfl
  rw [hS, List.dropLast_concat, List.getLast?_concat]
  have hXCR : ∀ l ∈ qBlockLines n d, '\r' ∉ l := by
    intro l hl
    rw [qBlockLines] at hl
    rcases List.mem_cons.mp hl with rfl | hl
    · decide
    rcases List.mem_cons.mp hl with rfl | hl
    · intro h
      rcases List.mem_append.mp h with h | h
      · simp at h
      · exact hr h
    rcases List.mem_cons.mp hl with rfl | hl
    · intro h
      rcases List.mem_append.mp h with h | h
      · simp at h
      · exact cr_not_mem_decChars h
    rcases List.mem_cons.mp hl with rfl | hl
    · exact hcrline _ _ (by decide) (fun b => natChars_mem (by omega) (by omega))
    rcases List.mem_cons.mp hl with rfl | hl
    · exact hcrline _ _ (by decide) (fun b => natChars_mem (by omega) (by omega))
    rcases List.mem_cons.mp hl with rfl | hl
    · exact hcrline _ _ (by decide) (fun b => hex2Chars_mem b)
    rcases List.mem_cons.mp hl with rfl | hl
    · decide
    simp at hl
  rw [map_stripCR_id hXCR]
  simp

/-! ### Decoder step classification -/

theorem runScan_append (t : List Char) : ∀ (ls1 ls2 : List (List Char)) (st : ScanSt),
    runScan t (ls1 ++ ls2) st =
      match runScan t ls1 st with
      | .found p => .found p
      | .st s => runScan t ls2 s := by
  intro ls1
  induction ls1 with
  | nil => intro ls2 st; rfl
  | cons l ls ih =>
    intro ls2 st
    rw [List.cons_append]
    cases h : stepLine t st l with
    | found p => simp [runScan, h]
    | cont st' => simp [runScan, h, ih]

theorem stepLine_entry {l : List Char} (t : List Char) (st : ScanSt)
    (h : hasInfixL ("ENTRY".toList) l = true) :
    stepLine t st l = .cont ⟨true, [], []⟩ := by
  simp only [stepLine]
  rw [h]
  simp

theorem stepLine_neutral {l : List Char} (t : List Char) (st : ScanSt)
    (h : neutralLine l = true) : stepLine t st l = .cont st := by
  simp only [neutralLine, Bool.and_eq_true, Bool.not_eq_true'] at h
  obtain ⟨⟨⟨⟨h1, h2⟩, h3⟩, h4⟩, h5⟩ := h
  simp only [stepLine]
  rw [h1, h2, h3, h4, h5]
  simp

theorem splitOnceColon_name (n : List Char) :
    splitOnceColon ("NAME:".toList ++ n) = some ("NAME".toList, n) := by
  have e : "NAME:".toList ++ n = 'N' :: 'A' :: 'M' :: 'E' :: ':' :: n := rfl
  rw [e]
  simp [splitOnceColon]

theorem stepLine_name {n : List Char} (t : List Char) (st : ScanSt)
    (h : hasInfixL ("ENTRY".toList) ("NAME:".toList ++ n) = false) :
    stepLine t st ("NAME:".toList ++ n) =
      .cont ⟨st.inside, st.collected, n⟩ := by
  have hp : hasPrefixL ("NAME:".toList) ("NAME:".toList ++ n) = true :=
    hasPrefixL_append_self _ _
  simp only [stepLine]
  rw [h, hp, splitOnceColon_name]
  simp

theorem stepLine_data {l : List Char} (t : List Char) (st : ScanSt)
    (hp : hasPrefixL ("DATA:".toList) l = true)
    (he : hasInfixL ("ENTRY".toList) l = false) :
    stepLine t st l =
      .cont ⟨st.inside, st.collected ++ parseHexTokens (l.drop 5), st.current_name⟩ := by
  have eD : "DATA:".toList = 'D' :: "ATA:".toList := rfl
  rw [eD] at hp
  obtain ⟨cs, rfl, -⟩ := hasPrefixL_head _ _ _ hp
  have hN : hasPrefixL ("NAME:".toList) ('D' :: cs) = false := by
    have eN : "NAME:".toList = 'N' :: "AME:".toList := rfl
    rw [eN]
    simp [hasPrefixL]
  rw [← eD] at hp
  simp only [stepLine]
  rw [he, hN, hp]
  simp

theorem stepLine_hex {l : List Char} (t : List Char) (st : ScanSt)
    (hp : hasPrefixL ("[HEX]".toList) l = true)
    (he : hasInfixL ("ENTRY".toList) l = false) :
    stepLine t st l =
      .cont ⟨st.inside, st.collected ++ parseHexTokens (l.drop 5), st.current_name⟩ := by
  have eH : "[HEX]".toList = '[' :: "HEX]".toList := rfl
  rw [eH] at hp
  obtain ⟨cs, rfl, -⟩ := hasPrefixL_head _ _ _ hp
  have hN : hasPrefixL ("NAME:".toList) ('[' :: cs) = false := by
    have eN : "NAME:".toList = 'N' :: "AME:".toList := rfl
    rw [eN]
    simp [hasPrefixL]
  have hD : hasPrefixL ("DATA:".toList) ('[' :: cs) = false := by
    have eD : "DATA:".toList = 'D' :: "ATA:".toList := rfl
    rw [eD]
    simp [hasPrefixL]
  rw [← eH] at hp
  simp only [stepLine]
  rw [he, hN, hD, hp]
  simp

theorem stepLine_end_std (t : List Char) (st : ScanSt) (hin : st.inside = true) :
    stepLine t st ("---END---".toList) =
      if st.current_name = t then .found st.collected
      else .cont ⟨false, st.collected, st.current_name⟩ := by
  have h1 : hasInfixL ("ENTRY".toList) ("---END---".toList) = false := by decide
  have h2 : hasPrefixL ("NAME:".toList) ("---END---".toList) = false := by decide
  have h3 : hasPrefixL ("DATA:".toList) ("---END---".toList) = false := by decide
  have h4 : hasPrefixL ("[HEX]".toList) ("---END---".toList) = false := by decide
  have h5 : hasInfixL ("END".toList) ("---END---".toList) = true := by decide
  simp only [stepLine]
  rw [h1, h2, h3, h4, h5, hin]
  simp

theorem stepLine_end_q (t : List Char) (st : ScanSt) (hin : st.inside = true) :
    stepLine t st ("###END###".toList) =
      if st.current_name = t then .found st.collected
      else .cont ⟨false, st.collected, st.current_name⟩ := by
  have h1 : hasInfixL ("ENTRY".toList) ("###END###".toList) = false := by decide
  have h2 : hasPrefixL ("NAME:".toList) ("###END###".toList) = false := by decide
  have h3 : hasPrefixL ("DATA:".toList) ("###END###".toList) = false := by decide
  have h4 : hasPrefixL ("[HEX]".toList) ("###END###".toList) = false := by decide
  have h5 : hasInfixL ("END".toList) ("###END###".toList) = true := by decide
  simp only [stepLine]
  rw [h1, h2, h3, h4, h5, hin]
  simp

theorem charset_no_tags {l : List Char} (h : ∀ c ∈ l, c = ' ' ∨ c ∈ hexDigits) :
    hasPrefixL ("NAME:".toList) l = false ∧ hasPrefixL ("DATA:".toList) l = false ∧
      hasPrefixL ("[HEX]".toList) l = false ∧
      hasInfixL ("ENTRY".toList) l = false ∧ hasInfixL ("END".toList) l = false := by
  have key : ∀ (c : Char), ¬(c = ' ' ∨ c ∈ hexDigits) → c ∉ l := by
    intro c hc hmem
    exact hc (h c hmem)
  have hN : 'N' ∉ l := key 'N' (by decide)
  have hT : 'T' ∉ l := key 'T' (by decide)
  have hB : '[' ∉ l := key '[' (by decide)
  refine ⟨?_, ?_, ?_, ?_, ?_⟩
  · cases hp : hasPrefixL ("NAME:".toList) l with
    | false => rfl
    | true => exact absurd (hasPrefixL_mem hp 'N' (by decide)) hN
  · cases hp : hasPrefixL ("DATA:".toList) l with
    | false => rfl
    | true => exact absurd (hasPrefixL_mem hp 'T' (by decide)) hT
  · cases hp : hasPrefixL ("[HEX]".toList) l with
    | false => rfl
    | true => exact absurd (hasPrefixL_mem hp '[' (by decide)) hB
  · exact hasInfixL_eq_false_of_not_mem (by decide) hN
  · exact hasInfixL_eq_false_of_not_mem (by decide) hN

theorem neutral_of_charset {l : List Char}
    (h : ∀ c ∈ l, c = ' ' ∨ c ∈ hexDigits) : neutralLine l = true := by
  obtain ⟨h1, h2, h3, h4, h5⟩ := charset_no_tags h
  simp only [neutralLine, Bool.and_eq_true, Bool.not_eq_true']
  exact ⟨⟨⟨⟨h4, h1⟩, h2⟩, h3⟩, h5⟩

theorem neutral_size (k : Nat) :
    neutralLine ("SIZE:".toList ++ decChars k) = true := by
  have hN : 'N' ∉ "SIZE:".toList ++ decChars k := by
    intro h
    rcases List.mem_append.mp h with h | h
    · simp at h
    · exact absurd rfl
        (hexDigits_char_facts _ (natChars_mem (by omega) (by omega) _ h)).2.2.2.1
  have e : "SIZE:".toList ++ decChars k = 'S' :: ("IZE:".toList ++ decChars k) := rfl
  have h1 : hasInfixL ("ENTRY".toList) ("SIZE:".toList ++ decChars k) = false :=
    hasInfixL_eq_false_of_not_mem (by decide) hN
  have h5 : hasInfixL ("END".toList) ("SIZE:".toList ++ decChars k) = false :=
    hasInfixL_eq_false_of_not_mem (by decide) hN
  have h2 : hasPrefixL ("NAME:".toList) ("SIZE:".toList ++ decChars k) = false := by
    rw [e]
    have eN : "NAME:".toList = 'N' :: "AME:".toList := rfl
    rw [eN]; simp [hasPrefixL]
  have h3 : hasPrefixL ("DATA:".toList) ("SIZE:".toList ++ decChars k) = false := by
    rw [e]
    have eD : "DATA:".toList = 'D' :: "ATA:".toList := rfl
    rw [eD]; simp [hasPrefixL]
  have h4 : hasPrefixL ("[HEX]".toList) ("SIZE:".toList ++ decChars k) = false := by
    rw [e]
    have eH : "[HEX]".toList = '[' :: "HEX]".toList := rfl
    rw [eH]; simp [hasPrefixL]
  simp only [neutralLine, Bool.and_eq_true, Bool.not_eq_true']
  exact ⟨⟨⟨⟨h1, h2⟩, h3⟩, h4⟩, h5⟩

theorem neutral_tagline {d : List Nat} {tag : List Char} {c2 : Char}
    {rest : List Char} {g : Nat → List Char}
    (htag : tag = '[' :: c2 :: rest) (hc2 : ¬(c2 = 'H')) (hNtag : 'N' ∉ tag)
    (hg : ∀ (b : Nat), ∀ c ∈ g b, c ∈ hexDigits) :
    neutralLine (tag ++ joinSpace (d.map g)) = true := by
  have hN : 'N' ∉ tag ++ joinSpace (d.map g) := by
    intro h
    rcases List.mem_append.mp h with h | h
    · exact hNtag h
    · rcases mem_joinSpace_map hg _ h with h | h
      · simp at h
      · exact absurd rfl (hexDigits_char_facts _ h).2.2.2.1
  have h1 : hasInfixL ("ENTRY".toList) (tag ++ joinSpace (d.map g)) = false :=
    hasInfixL_eq_false_of_not_mem (by decide) hN
  have h5 : hasInfixL ("END".toList) (tag ++ joinSpace (d.map g)) = false :=
    hasInfixL_eq_false_of_not_mem (by decide) hN
  have e : tag ++ joinSpace (d.map g) = '[' :: (c2 :: rest ++ joinSpace (d.map g)) := by
    rw [htag]; rfl
  have h2 : hasPrefixL ("NAME:".toList) (tag ++ joinSpace (d.map g)) = false := by
    rw [e]
    have eN : "NAME:".toList = 'N' :: "AME:".toList := rfl
    rw [eN]; simp [hasPrefixL]
  have h3 : hasPrefixL ("DATA:".toList) (tag ++ joinSpace (d.map g)) = false := by
    rw [e]
    have eD : "DATA:".toList = 'D' :: "ATA:".toList := rfl
    rw [eD]; simp [hasPrefixL]
  have h4 : hasPrefixL ("[HEX]".toList) (tag ++ joinSpace (d.map g)) = false := by
    rw [e]
    have eH : "[HEX]".toList = '[' :: 'H' :: "EX]".toList := rfl
    rw [eH]
    simp [hasPrefixL, hc2]
    intro hh
    exact absurd hh.symm hc2
  simp only [neutralLine, Bool.and_eq_true, Bool.not_eq_true']
  exact ⟨⟨⟨⟨h1, h2⟩, h3⟩, h4⟩, h5⟩

theorem runScan_neutral_lines (t : List Char) :
    ∀ (L : List (List Char)) (X : List (List Char)) (st : ScanSt),
      (∀ l ∈ L, neutralLine l = true) →
      runScan t (L ++ X) st = runScan t X st := by
  intro L
  induction L with
  | nil => intro X st _; rfl
  | cons l ls ih =>
    intro X st h
    rw [List.cons_append, runScan,
      stepLine_neutral t st (h l (List.mem_cons_self _ _))]
    exact ih X st (fun u hu => h u (List.mem_cons_of_mem _ hu))

theorem runScan_cons_cont {t l : List Char} {st st' : ScanSt}
    (ls : List (List Char)) (h : stepLine t st l = .cont st') :
    runScan t (l :: ls) st = runScan t ls st' := by
  rw [runScan, h]

theorem runScan_cons_found {t l : List Char} {st : ScanSt} {p : List Nat}
    (ls : List (List Char)) (h : stepLine t st l = .found p) :
    runScan t (l :: ls) st = .found p := by
  rw [runScan, h]

theorem filterMap_parse_map {d : List Nat} (hb : ∀ b ∈ d, b < 256) :
    (d.map hex2Chars).filterMap parseHexU8 = d := by
  induction d with
  | nil => rfl
  | cons b bs ih =>
    rw [List.map_cons, List.filterMap_cons,
      parseHex_hex2 (hb b (List.mem_cons_self _ _)),
      ih (fun x hx => hb x (List.mem_cons_of_mem _ hx))]

theorem hex2Chars_token (b : Nat) :
    hex2Chars b ≠ [] ∧ ∀ c ∈ hex2Chars b, isWS c = false :=
  ⟨hex2Chars_ne_nil b,
   fun c hc => (hexDigits_char_facts _ (hex2Chars_mem b _ hc)).1⟩

theorem parseHexTokens_hexline {d : List Nat} (hb : ∀ b ∈ d, b < 256) :
    parseHexTokens (' ' :: joinSpace (d.map hex2Chars)) = d := by
  unfold parseHexTokens
  rw [splitWS_trimWS, splitWS_cons_ws _ (by decide),
    splitWS_joinSpace (fun u hu => by
      obtain ⟨b, _, rfl⟩ := List.mem_map.mp hu
      exact hex2Chars_token b)]
  exact filterMap_parse_map hb

theorem save_to_db_frame (f n : List Char) (d : List Nat) (q : Bool) :
    save_to_db f n d q = f ++ save_to_db [] n d q := by
  cases q
  · rw [save_std_eq f n d, save_std_eq [] n d]
    simp
  · rw [save_q_eq f n d, save_q_eq [] n d]
    simp

theorem runScan_stdBlock (t : List Char) {n : List Char} (d : List Nat)
    (rest : List (List Char)) (st : ScanSt) (hGN : goodName n) :
    ∃ coll, runScan t (stdBlockLines n d ++ rest) st =
      if n = t then ScanRes.found coll else runScan t rest ⟨false, coll, n⟩ := by
  obtain ⟨hn, hr, hE⟩ := hGN
  cases hBL : bodyLines d 16 with
  | nil => exact absurd hBL (bodyLines_ne_nil d 16)
  | cons h0 tl =>
    have hchar0 : ∀ c ∈ h0, c = ' ' ∨ c ∈ hexDigits :=
      bodyLines_charset d 16 h0 (hBL ▸ List.mem_cons_self _ _)
    refine ⟨parseHexTokens (("DATA: ".toList ++ h0).drop 5), ?_⟩
    have hblock : stdBlockLines n d ++ rest =
        "---ENTRY---".toList :: ("NAME:".toList ++ n) ::
          ("SIZE:".toList ++ decChars d.length) ::
          (("DATA: ".toList ++ h0) :: (tl ++ ("---END---".toList :: rest))) := by
      rw [stdBlockLines, hBL, consHead_cons]
      simp [List.append_assoc]
    rw [hblock]
    rw [runScan_cons_cont _ (stepLine_entry t st (by decide))]
    rw [runScan_cons_cont _ (stepLine_name t _ hE)]
    dsimp only
    rw [runScan_cons_cont _ (stepLine_neutral t _ (neutral_size d.length))]
    have hDAp : hasPrefixL ("DATA:".toList) ("DATA: ".toList ++ h0) = true := by
      have e : "DATA: ".toList ++ h0 = "DATA:".toList ++ (' ' :: h0) := rfl
      rw [e]
      exact hasPrefixL_append_self _ _
    have hDAe : hasInfixL ("ENTRY".toList) ("DATA: ".toList ++ h0) = false := by
      refine hasInfixL_eq_false_of_not_mem (show 'N' ∈ "ENTRY".toList by decide) ?_
      intro hmem
      rcases List.mem_append.mp hmem with hmem | hmem
      · simp at hmem
      · rcases hchar0 'N' hmem with hh | hh
        · simp at hh
        · exact absurd rfl (hexDigits_char_facts _ hh).2.2.2.1
    rw [runScan_cons_cont _ (stepLine_data t _ hDAp hDAe)]
    dsimp only [List.nil_append]
    rw [runScan_neutral_lines t tl _ _ (fun l hl =>
      neutral_of_charset (bodyLines_charset d 16 l (hBL ▸ List.mem_cons_of_mem _ hl)))]
    have hend := stepLine_end_std t
      ⟨true, parseHexTokens (("DATA: ".toList ++ h0).drop 5), n⟩ rfl
    dsimp only at hend
    by_cases hnt : n = t
    · rw [if_pos hnt] at hend
      rw [runScan_cons_found _ hend, if_pos hnt]
    · rw [if_neg hnt] at hend
      rw [runScan_cons_cont _ hend, if_neg hnt]

theorem runScan_qBlock_gen (t : List Char) {n : List Char} (d : List Nat)
    (rest : List (List Char)) (st : ScanSt) (hGN : goodName n) :
    runScan t (qBlockLines n d ++ rest) st =
      if n = t then
        ScanRes.found (parseHexTokens (' ' :: joinSpace (d.map hex2Chars)))
      else
        runScan t rest ⟨false, parseHexTokens (' ' :: joinSpace (d.map hex2Chars)), n⟩ := by
  obtain ⟨hn, hr, hE⟩ := hGN
  have hgdec : ∀ (b : Nat), ∀ c ∈ decChars b, c ∈ hexDigits :=
    fun b => natChars_mem (by omega) (by omega)
  have hgoct : ∀ (b : Nat), ∀ c ∈ octChars b, c ∈ hexDigits :=
    fun b => natChars_mem (by omega) (by omega)
  have hblock : qBlockLines n d ++ rest =
      "###ENTRY###".toList :: ("NAME:".toList ++ n) ::
        ("SIZE:".toList ++ decChars d.length) ::
        ("[DEC] ".toList ++ joinSpace (d.map decChars)) ::
        ("[OCT] ".toList ++ joinSpace (d.map octChars)) ::
        ("[HEX] ".toList ++ joinSpace (d.map hex2Chars)) ::
        ("###END###".toList :: rest) := by
    rw [qBlockLines]
    simp
  rw [hblock]
  rw [runScan_cons_cont _ (stepLine_entry t st (by decide))]
  rw [runScan_cons_cont _ (stepLine_name t _ hE)]
  dsimp only
  rw [runScan_cons_cont _ (stepLine_neutral t _ (neutral_size d.length))]
  rw [runScan_cons_cont _ (stepLine_neutral t _ (neutral_tagline
    (show "[DEC] ".toList = '[' :: 'D' :: "EC] ".toList from rfl)
    (by decide) (by decide) hgdec))]
  rw [runScan_cons_cont _ (stepLine_neutral t _ (neutral_tagline
    (show "[OCT] ".toList = '[' :: 'O' :: "CT] ".toList from rfl)
    (by decide) (by decide) hgoct))]
  have hHXp : hasPrefixL ("[HEX]".toList)
      ("[HEX] ".toList ++ joinSpace (d.map hex2Chars)) = true := by
    have e : "[HEX] ".toList ++ joinSpace (d.map hex2Chars) =
        "[HEX]".toList ++ (' ' :: joinSpace (d.map hex2Chars)) := rfl
    rw [e]
    exact hasPrefixL_append_self _ _
  have hHXe : hasInfixL ("ENTRY".toList)
      ("[HEX] ".toList ++ joinSpace (d.map hex2Chars)) = false := by
    refine hasInfixL_eq_false_of_not_mem (show 'N' ∈ "ENTRY".toList by decide) ?_
    intro hmem
    rcases List.mem_append.mp hmem with hmem | hmem
    · simp at hmem
    · rcases mem_joinSpace_map (fun b => hex2Chars_mem b) 'N' hmem with hh | hh
      · simp at hh
      · exact absurd rfl (hexDigits_char_facts _ hh).2.2.2.1
  have hdrop : ("[HEX] ".toList ++ joinSpace (d.map hex2Chars)).drop 5 =
      ' ' :: joinSpace (d.map hex2Chars) := rfl
  rw [runScan_cons_cont _ (stepLine_hex t _ hHXp hHXe)]
  rw [hdrop]
  dsimp only [List.nil_append]
  have hend := stepLine_end_q t
    ⟨true, parseHexTokens (' ' :: joinSpace (d.map hex2Chars)), n⟩ rfl
  dsimp only at hend
  by_cases hnt : n = t
  · rw [if_pos hnt] at hend
    rw [runScan_cons_found _ hend, if_pos hnt]
  · rw [if_neg hnt] at hend
    rw [runScan_cons_cont _ hend, if_neg hnt]

theorem runScan_qBlock (t : List Char) {n : List Char} (d : List Nat)
    (rest : List (List Char)) (st : ScanSt) (hGN : goodName n)
    (hb : ∀ b ∈ d, b < 256) :
    runScan t (qBlockLines n d ++ rest) st =
      if n = t then ScanRes.found d else runScan t rest ⟨false, d, n⟩ := by
  rw [runScan_qBlock_gen t d rest st hGN, parseHexTokens_hexline hb]

/-! ### Archives built from encoder calls -/

theorem foldl_save : ∀ (es : List (List Char × List Nat × Bool)) (f : List Char),
    es.foldl (fun f e => save_to_db f e.1 e.2.1 e.2.2) f = f ++ buildArchive es := by
  intro es
  induction es with
  | nil => intro f; simp [buildArchive]
  | cons e es ih =>
    intro f
    rw [List.foldl_cons, ih, save_to_db_frame]
    have : buildArchive (e :: es) = save_to_db [] e.1 e.2.1 e.2.2 ++ buildArchive es := by
      unfold buildArchive
      rw [List.foldl_cons, ih (save_to_db [] e.1 e.2.1 e.2.2)]
      rfl
    rw [this, List.append_assoc]

theorem buildArchive_cons (e : List Char × List Nat × Bool)
    (es : List (List Char × List Nat × Bool)) :
    buildArchive (e :: es) = save_to_db [] e.1 e.2.1 e.2.2 ++ buildArchive es := by
  unfold buildArchive
  rw [List.foldl_cons, foldl_save es (save_to_db [] e.1 e.2.1 e.2.2)]
  rfl

theorem save_ends_nl (n : List Char) (d : List Nat) (q : Bool) :
    ∃ A, save_to_db [] n d q = A ++ ['\n'] := by
  cases q
  · rw [save_std_eq]
    refine ⟨"---ENTRY---".toList ++ '\n' ::
      (("NAME:".toList ++ n) ++ '\n' ::
        (("SIZE:".toList ++ decChars d.length) ++ '\n' ::
          ("DATA: ".toList ++ (bodyAux d 16 ++ '\n' :: "---END---".toList)))), ?_⟩
    simp
  · rw [save_q_eq]
    refine ⟨"###ENTRY###".toList ++ '\n' ::
      (("NAME:".toList ++ n) ++ '\n' ::
        (("SIZE:".toList ++ decChars d.length) ++ '\n' ::
          (("[DEC] ".toList ++ joinSpace (d.map decChars)) ++ '\n' ::
            (("[OCT] ".toList ++ joinSpace (d.map octChars)) ++ '\n' ::
              (("[HEX] ".toList ++ joinSpace (d.map hex2Chars)) ++ '\n' ::
                "###END###".toList))))), ?_⟩
    simp

theorem linesOf_save_append {n : List Char} (d : List Nat) (q : Bool)
    (rest : List Char) (hn : '\n' ∉ n) (hr : '\r' ∉ n) :
    linesOf (save_to_db [] n d q ++ rest) =
      (if q then qBlockLines n d else stdBlockLines n d) ++ linesOf rest := by
  obtain ⟨A, hA⟩ := save_ends_nl n d q
  rw [hA, linesOf_append_endNl, ← hA]
  cases q
  · rw [linesOf_save_std d hn hr]
    rfl
  · rw [linesOf_save_q d hn hr]
    rfl

theorem linesOf_nil : linesOf [] = [] := rfl

theorem scan_archive (t : List Char) :
    ∀ (es : List (List Char × List Nat × Bool)) (st : ScanSt),
      (∀ e ∈ es, goodName e.1 ∧ e.1 ≠ t) →
      ∃ st', runScan t (linesOf (buildArchive es)) st = .st st' := by
  intro es
  induction es with
  | nil => intro st _; exact ⟨st, rfl⟩
  | cons e es ih =>
    intro st hwf
    obtain ⟨hGN, hne⟩ := hwf e (List.mem_cons_self _ _)
    rw [buildArchive_cons,
      linesOf_save_append e.2.1 e.2.2 _ hGN.1 hGN.2.1]
    cases hq : e.2.2
    · rw [if_neg (by simp)]
      obtain ⟨coll, hscan⟩ := runScan_stdBlock t e.2.1
        (linesOf (buildArchive es)) st hGN
      rw [hscan, if_neg hne]
      exact ih _ (fun u hu => hwf u (List.mem_cons_of_mem _ hu))
    · rw [if_pos rfl]
      rw [runScan_qBlock_gen t e.2.1 (linesOf (buildArchive es)) st hGN, if_neg hne]
      exact ih _ (fun u hu => hwf u (List.mem_cons_of_mem _ hu))

/-! ### Generic branch lemmas for arbitrary lines -/

theorem stepLine_name0 {l : List Char} (t : List Char) (st : ScanSt)
    (hE : hasInfixL ("ENTRY".toList) l = false)
    (hN : hasPrefixL ("NAME:".toList) l = true) :
    stepLine t st l =
      .cont ⟨st.inside, st.collected, ((splitOnceColon l).map Prod.snd).getD []⟩ := by
  simp only [stepLine]
  rw [hE, hN]
  simp

theorem stepLine_default0 {l : List Char} (t : List Char) (st : ScanSt)
    (hE : hasInfixL ("ENTRY".toList) l = false)
    (hN : hasPrefixL ("NAME:".toList) l = false)
    (hD : hasPrefixL ("DATA:".toList) l = false)
    (hX : hasPrefixL ("[HEX]".toList) l = false)
    (hin : st.inside = false) :
    stepLine t st l = .cont st := by
  simp only [stepLine]
  rw [hE, hN, hD, hX, hin]
  simp

theorem stepLine_data0 {l : List Char} (t : List Char) (st : ScanSt)
    (hE : hasInfixL ("ENTRY".toList) l = false)
    (hN : hasPrefixL ("NAME:".toList) l = false)
    (hD : hasPrefixL ("DATA:".toList) l = true) :
    stepLine t st l =
      .cont ⟨st.inside, st.collected ++ parseHexTokens (l.drop 5), st.current_name⟩ := by
  simp only [stepLine]
  rw [hE, hN, hD]
  simp

theorem stepLine_hex0 {l : List Char} (t : List Char) (st : ScanSt)
    (hE : hasInfixL ("ENTRY".toList) l = false)
    (hN : hasPrefixL ("NAME:".toList) l = false)
    (hD : hasPrefixL ("DATA:".toList) l = false)
    (hX : hasPrefixL ("[HEX]".toList) l = true) :
    stepLine t st l =
      .cont ⟨st.inside, st.collected ++ parseHexTokens (l.drop 5), st.current_name⟩ := by
  simp only [stepLine]
  rw [hE, hN, hD, hX]
  simp

theorem runScan_outside_indep (t : List Char) :
    ∀ (ls : List (List Char)) (c₁ : List Nat) (n₁ : List Char)
      (c₂ : List Nat) (n₂ : List Char) (p : List Nat),
      runScan t ls ⟨false, c₁, n₁⟩ = .found p →
      runScan t ls ⟨false, c₂, n₂⟩ = .found p := by
  intro ls
  induction ls with
  | nil =>
    intro c₁ n₁ c₂ n₂ p h
    exact absurd h (by simp [runScan])
  | cons l ls ih =>
    intro c₁ n₁ c₂ n₂ p h
    by_cases hE : hasInfixL ("ENTRY".toList) l = true
    · rw [runScan_cons_cont _ (stepLine_entry t _ hE)] at h
      rw [runScan_cons_cont _ (stepLine_entry t _ hE)]
      exact h
    · have hE' : hasInfixL ("ENTRY".toList) l = false := by
        simpa using hE
      by_cases hN : hasPrefixL ("NAME:".toList) l = true
      · rw [runScan_cons_cont _ (stepLine_name0 t _ hE' hN)] at h
        rw [runScan_cons_cont _ (stepLine_name0 t _ hE' hN)]
        exact ih _ _ _ _ p h
      · have hN' : hasPrefixL ("NAME:".toList) l = false := by simpa using hN
        by_cases hD : hasPrefixL ("DATA:".toList) l = true
        · rw [runScan_cons_cont _ (stepLine_data0 t _ hE' hN' hD)] at h
          rw [runScan_cons_cont _ (stepLine_data0 t _ hE' hN' hD)]
          exact ih _ _ _ _ p h
        · have hD' : hasPrefixL ("DATA:".toList) l = false := by simpa using hD
          by_cases hX : hasPrefixL ("[HEX]".toList) l = true
          · rw [runScan_cons_cont _ (stepLine_hex0 t _ hE' hN' hD' hX)] at h
            rw [runScan_cons_cont _ (stepLine_hex0 t _ hE' hN' hD' hX)]
            exact ih _ _ _ _ p h
          · have hX' : hasPrefixL ("[HEX]".toList) l = false := by simpa using hX
            rw [runScan_cons_cont _ (stepLine_default0 t _ hE' hN' hD' hX' rfl)] at h
            rw [runScan_cons_cont _ (stepLine_default0 t _ hE' hN' hD' hX' rfl)]
            exact ih _ _ _ _ p h

theorem length_filterMap_parse (l : List (List Char)) :
    (l.filterMap parseHexU8).length +
      l.countP (fun tok => (parseHexU8 tok).isNone) = l.length := by
  induction l with
  | nil => rfl
  | cons x xs ih =>
    cases hx : parseHexU8 x with
    | none =>
      rw [List.filterMap_cons, hx, List.countP_cons]
      simp only [hx, Option.isNone_none, List.length_cons, eq_self_iff_true,
        if_true]
      omega
    | some v =>
      rw [List.filterMap_cons, hx, List.countP_cons]
      simp only [hx, Option.isNone_some, List.length_cons, Bool.false_eq_true,
        if_false]
      omega

/-! ## Claim theorems -/

/-- C1: the claim asserts that for both variants and payload lengths
0, 1, 15, 16, 17 and 256 a save/load round trip returns the original
payload.  The code violates this: the Standard encoder writes the bytes
after the 16th on untagged continuation lines which `load_from_db`
ignores, so a 17-byte payload comes back truncated to its first 16 bytes,
while the same payload round-trips correctly in the Quantum variant.
This theorem evaluates the embedding at the failing input. -/
theorem c1_standard_seventeen_bytes_truncated :
    load_from_db (save_to_db [] ("f".toList) (List.range 17) false) ("f".toList)
        = some (List.range 16) ∧
      some (List.range 16) ≠ some (List.range 17) ∧
      load_from_db (save_to_db [] ("f".toList) (List.range 17) true) ("f".toList)
        = some (List.range 17) := by
  refine ⟨by decide, by decide, by decide⟩

/-- C2 counterexample: for a 17-byte payload the Standard encoder emits the
payload-bearing line `"10 "` (line index 4, holding the hex token of the
seventeenth byte) which does not begin with `DATA:`, refuting the claim
that every payload-bearing line it produces starts with the `DATA:` tag. -/
theorem c2_untagged_continuation_line :
    (linesOf (save_to_db [] ("f".toList) (List.range 17) false)).get? 4 =
        some ('1' :: '0' :: [' ']) ∧
      hasPrefixL ("DATA:".toList) ('1' :: '0' :: [' ']) = false ∧
      parseHexTokens ('1' :: '0' :: [' ']) = [16] := by
  refine ⟨by decide, by decide, by decide⟩

/-- C2 amended: the Standard encoder writes the payload as two-digit
uppercase hex tokens with a line break after every 16 bytes, but only the
first payload line carries the `DATA:` tag; continuation lines after a
wrap are untagged, so exactly one line of the entry block starts with
`DATA:`. -/
theorem c2_amended_single_data_tag (n : List Char) (d : List Nat)
    (hn : '\n' ∉ n) (hr : '\r' ∉ n) :
    linesOf (save_to_db [] n d false) = stdBlockLines n d ∧
      (stdBlockLines n d).countP (fun l => hasPrefixL ("DATA:".toList) l) = 1 := by
  refine ⟨linesOf_save_std d hn hr, ?_⟩
  cases hBL : bodyLines d 16 with
  | nil => exact absurd hBL (bodyLines_ne_nil d 16)
  | cons h0 tl =>
    have hE : hasPrefixL ("DATA:".toList) ("---ENTRY---".toList) = false := by decide
    have hNM : hasPrefixL ("DATA:".toList) ("NAME:".toList ++ n) = false := by
      have e : "NAME:".toList ++ n = 'N' :: ("AME:".toList ++ n) := rfl
      have eD : "DATA:".toList = 'D' :: "ATA:".toList := rfl
      rw [e, eD]; simp [hasPrefixL]
    have hSZ : hasPrefixL ("DATA:".toList)
        ("SIZE:".toList ++ decChars d.length) = false := by
      have e : "SIZE:".toList ++ decChars d.length =
          'S' :: ("IZE:".toList ++ decChars d.length) := rfl
      have eD : "DATA:".toList = 'D' :: "ATA:".toList := rfl
      rw [e, eD]; simp [hasPrefixL]
    have hDA : hasPrefixL ("DATA:".toList) ("DATA: ".toList ++ h0) = true := by
      have e : "DATA: ".toList ++ h0 = "DATA:".toList ++ (' ' :: h0) := rfl
      rw [e]; exact hasPrefixL_append_self _ _
    have hEN : hasPrefixL ("DATA:".toList) ("---END---".toList) = false := by decide
    have htl : (tl.countP (fun l => hasPrefixL ("DATA:".toList) l)) = 0 := by
      rw [List.countP_eq_zero]
      intro l hl
      have hmem : l ∈ bodyLines d 16 := by
        rw [hBL]
        exact List.mem_cons_of_mem _ hl
      have hfact := (charset_no_tags (bodyLines_charset d 16 l hmem)).2.1
      intro hcontra
      have hcontra' : hasPrefixL ("DATA:".toList) l = true := hcontra
      rw [hfact] at hcontra'
      exact Bool.false_ne_true hcontra'
    rw [stdBlockLines, hBL, consHead_cons]
    rw [List.countP_cons, List.countP_cons, List.countP_cons, List.countP_append,
      List.countP_cons, List.countP_cons, List.countP_nil, htl]
    rw [hE, hNM, hSZ, hDA, hEN]
    simp

/-- C2 witness: the amended statement evaluated at name `f` and the
two-byte payload `[1, 2]`. -/
theorem c2_amended_single_data_tag_witness :
    linesOf (save_to_db [] ("f".toList) [1, 2] false) =
        stdBlockLines ("f".toList) [1, 2] ∧
      (stdBlockLines ("f".toList) [1, 2]).countP
        (fun l => hasPrefixL ("DATA:".toList) l) = 1 :=
  c2_amended_single_data_tag ("f".toList) [1, 2] (by decide) (by decide)

/-- C3: the decoder returns the payload of the first entry whose name
matches the target and stops scanning at the matching end marker: once a
prefix of the line stream produces a successful return, any lines after
it are never examined; in particular an archive holding two same-named
Quantum entries yields the first entry's payload. -/
theorem c3_first_match_precedence :
    (∀ (t : List Char) (pre rest : List (List Char)) (st : ScanSt) (p : List Nat),
        runScan t pre st = .found p → runScan t (pre ++ rest) st = .found p) ∧
    (∀ (n : List Char) (d1 d2 : List Nat), goodName n →
        (∀ b ∈ d1, b < 256) → (∀ b ∈ d2, b < 256) →
        load_from_db (save_to_db (save_to_db [] n d1 true) n d2 true) n = some d1) := by
  constructor
  · intro t pre rest st p h
    rw [runScan_append, h]
  · intro n d1 d2 hGN hb1 hb2
    unfold load_from_db
    rw [save_to_db_frame (save_to_db [] n d1 true) n d2 true,
      linesOf_save_append d1 true _ hGN.1 hGN.2.1, if_pos rfl,
      linesOf_save_q d2 hGN.1 hGN.2.1,
      runScan_qBlock n d1 _ _ hGN hb1, if_pos rfl]

/-- C3 witness: a concrete four-line entry for name `a` is found with
payload `[1]`; appending further lines leaves the result unchanged, and a
two-entry archive with the same name under both entries yields the first
payload. -/
theorem c3_first_match_precedence_witness :
    runScan ("a".toList)
        (["---ENTRY---".toList, "NAME:a".toList, "DATA: 01".toList,
          "---END---".toList] ++ ["NAME:zzz".toList, "DATA: FF".toList])
        ⟨false, [], []⟩ = .found [1] ∧
      load_from_db (save_to_db (save_to_db [] ("a".toList) [1] true)
        ("a".toList) [2] true) ("a".toList) = some [1] := by
  constructor
  · exact c3_first_match_precedence.1 ("a".toList) _ _ _ [1] (by decide)
  · exact c3_first_match_precedence.2 ("a".toList) [1] [2] (by decide)
      (by decide) (by decide)

/-- C4: the Quantum decoder reconstructs the payload exclusively from the
`[HEX]` line: any line matching none of the handled tags or markers is a
no-op for the scan state, replacing one such line by another (in
particular, rewriting the `[DEC]` or `[OCT]` line arbitrarily, as long as
the replacement matches no handled tag or marker) leaves the scan result
unchanged, and the `[DEC]`/`[OCT]` lines the encoder writes are such
no-op lines. -/
theorem c4_hex_only_decoding :
    (∀ (t : List Char) (st : ScanSt) (l : List Char),
        neutralLine l = true → stepLine t st l = .cont st) ∧
    (∀ (t : List Char) (st : ScanSt) (pre post : List (List Char))
        (l₁ l₂ : List Char), neutralLine l₁ = true → neutralLine l₂ = true →
        runScan t (pre ++ l₁ :: post) st = runScan t (pre ++ l₂ :: post) st) ∧
    (∀ d : List Nat,
        neutralLine ("[DEC] ".toList ++ joinSpace (d.map decChars)) = true ∧
        neutralLine ("[OCT] ".toList ++ joinSpace (d.map octChars)) = true) := by
  refine ⟨fun t st l h => stepLine_neutral t st h, ?_, ?_⟩
  · intro t st pre post l₁ l₂ h₁ h₂
    rw [runScan_append, runScan_append]
    cases hpre : runScan t pre st with
    | found p => rfl
    | st s =>
      dsimp only
      rw [runScan_cons_cont _ (stepLine_neutral t s h₁),
        runScan_cons_cont _ (stepLine_neutral t s h₂)]
  · intro d
    constructor
    · exact neutral_tagline (show "[DEC] ".toList = '[' :: 'D' :: "EC] ".toList
        from rfl) (by decide) (by decide)
        (fun b => natChars_mem (by omega) (by omega))
    · exact neutral_tagline (show "[OCT] ".toList = '[' :: 'O' :: "CT] ".toList
        from rfl) (by decide) (by decide)
        (fun b => natChars_mem (by omega) (by omega))

/-- C4 witness: replacing a concrete `[DEC]` line by a corrupted variant
(both matching no handled tag or marker) leaves a concrete scan
unchanged, and the encoder's `[DEC]`/`[OCT]` lines for payload `[65]` are
no-op lines. -/
theorem c4_hex_only_decoding_witness :
    neutralLine ("[DEC] 65 66".toList) = true ∧
      neutralLine ("[DEC] garbage!!".toList) = true ∧
      runScan ("a".toList)
        (["###ENTRY###".toList, "NAME:a".toList] ++
          "[DEC] 65 66".toList :: ["[HEX] 41".toList, "###END###".toList])
        ⟨false, [], []⟩ =
      runScan ("a".toList)
        (["###ENTRY###".toList, "NAME:a".toList] ++
          "[DEC] garbage!!".toList :: ["[HEX] 41".toList, "###END###".toList])
        ⟨false, [], []⟩ ∧
      neutralLine ("[DEC] ".toList ++ joinSpace ([65].map decChars)) = true := by
  refine ⟨by decide, by decide, ?_, ?_⟩
  · exact c4_hex_only_decoding.2.1 ("a".toList) ⟨false, [], []⟩ _ _ _ _
      (by decide) (by decide)
  · exact (c4_hex_only_decoding.2.2 [65]).1

/-- C5 counterexample: the line `"DATA: ENTRY 41"` begins with `DATA:` and
carries the parseable token `41`, yet the decoder treats it as a start
marker (it contains the substring `ENTRY`) and resets the state instead
of parsing its tokens, so the claim does not hold for every `DATA:`
line. -/
theorem c5_data_line_with_entry_marker :
    hasPrefixL ("DATA:".toList) ("DATA: ENTRY 41".toList) = true ∧
      parseHexTokens (("DATA: ENTRY 41".toList).drop 5) = [65] ∧
      stepLine ([] : List Char) ⟨false, [7], "q".toList⟩ ("DATA: ENTRY 41".toList) =
        .cont ⟨true, [], []⟩ ∧
      ([] : List Nat) ≠ [65] := by
  refine ⟨by decide, by decide, by decide, by decide⟩

/-- C5 amended: on every `DATA:` or `[HEX]` line that does not contain the
substring `ENTRY` (such a line is treated as a start marker instead), the
decoder appends to the buffer exactly the whitespace-separated tokens that
parse as hexadecimal bytes, in order, silently skipping the tokens that
fail to parse, so the appended payload is shorter than the token count by
exactly the number of skipped tokens. -/
theorem c5_amended_token_tolerance :
    (∀ (t : List Char) (st : ScanSt) (l : List Char),
        hasPrefixL ("DATA:".toList) l = true →
        hasInfixL ("ENTRY".toList) l = false →
        stepLine t st l =
          .cont ⟨st.inside, st.collected ++ parseHexTokens (l.drop 5),
            st.current_name⟩) ∧
    (∀ (t : List Char) (st : ScanSt) (l : List Char),
        hasPrefixL ("[HEX]".toList) l = true →
        hasInfixL ("ENTRY".toList) l = false →
        stepLine t st l =
          .cont ⟨st.inside, st.collected ++ parseHexTokens (l.drop 5),
            st.current_name⟩) ∧
    (∀ s : List Char,
        parseHexTokens s = (splitWS (trimWS s)).filterMap parseHexU8 ∧
        (parseHexTokens s).length +
          (splitWS (trimWS s)).countP (fun tok => (parseHexU8 tok).isNone) =
          (splitWS (trimWS s)).length) := by
  refine ⟨fun t st l hp he => stepLine_data t st hp he,
    fun t st l hp he => stepLine_hex t st hp he,
    fun s => ⟨rfl, length_filterMap_parse _⟩⟩

/-- C5 witness: on the line `"DATA: 0A ZZ 0B"` the invalid token `ZZ` is
skipped and the two valid tokens decode in order. -/
theorem c5_amended_token_tolerance_witness :
    hasPrefixL ("DATA:".toList) ("DATA: 0A ZZ 0B".toList) = true ∧
      hasInfixL ("ENTRY".toList) ("DATA: 0A ZZ 0B".toList) = false ∧
      stepLine ("f".toList) ⟨true, [], "g".toList⟩ ("DATA: 0A ZZ 0B".toList) =
        .cont ⟨true, [10, 11], "g".toList⟩ := by
  refine ⟨by decide, by decide, ?_⟩
  rw [c5_amended_token_tolerance.1 ("f".toList) ⟨true, [], "g".toList⟩
    ("DATA: 0A ZZ 0B".toList) (by decide) (by decide)]
  decide

/-- C6: scanning an archive consisting of well-formed entries none of
which is named `target` reaches end of file, returns the distinguished
`notFound` outcome (not a success), and leaves the output destination
exactly as it was: the output file is written only on a successful
match. -/
theorem c6_not_found_output_untouched
    (es : List (List Char × List Nat × Bool)) (target : List Char)
    (outPrev : Option (List Nat))
    (hwf : ∀ e ∈ es, goodName e.1 ∧ e.1 ≠ target) :
    load_run (buildArchive es) target outPrev = (LoadOutcome.notFound, outPrev) := by
  obtain ⟨st', hs⟩ := scan_archive target es ⟨false, [], []⟩ hwf
  unfold load_run load_from_db
  rw [hs]

/-- C6 witness: a two-entry archive (one Standard, one Quantum entry)
without the requested name leaves the output content `some [9]`
untouched and reports `notFound`. -/
theorem c6_not_found_output_untouched_witness :
    (∀ e ∈ ([("a".toList, ([1], false)), ("b".toList, ([2, 3], true))] :
        List (List Char × List Nat × Bool)), goodName e.1 ∧ e.1 ≠ "c".toList) ∧
      load_run (buildArchive
          [("a".toList, ([1], false)), ("b".toList, ([2, 3], true))])
        ("c".toList) (some [9]) = (LoadOutcome.notFound, some [9]) := by
  have hwf : ∀ e ∈ ([("a".toList, ([1], false)), ("b".toList, ([2, 3], true))] :
      List (List Char × List Nat × Bool)), goodName e.1 ∧ e.1 ≠ "c".toList := by
    decide
  exact ⟨hwf, c6_not_found_output_untouched _ _ _ hwf⟩

/-- C7 counterexample: on the line `"NAME:ENTRY"` (a `NAME:` line whose
name part is `ENTRY`) the decoder does not capture the text after the
first colon: the substring test for `ENTRY` wins and the line resets the
state, clearing the current name instead of setting it to `ENTRY`. -/
theorem c7_name_capture_entry_override :
    hasPrefixL ("NAME:".toList) ("NAME:ENTRY".toList) = true ∧
      ((splitOnceColon ("NAME:ENTRY".toList)).map Prod.snd).getD [] =
        "ENTRY".toList ∧
      stepLine ([] : List Char) ⟨true, [], "x".toList⟩ ("NAME:ENTRY".toList) =
        .cont ⟨true, [], []⟩ ∧
      ([] : List Char) ≠ "ENTRY".toList := by
  refine ⟨by decide, by decide, by decide, by decide⟩

/-- C7 amended: on a `NAME:` line that does not contain the substring
`ENTRY`, the captured name is everything following the first colon — a
name containing further colons is preserved verbatim — and the match at an
end marker compares the captured name to the target by exact,
case-sensitive list equality. -/
theorem c7_amended_name_capture_exact :
    (∀ (n t : List Char) (st : ScanSt),
        hasInfixL ("ENTRY".toList) ("NAME:".toList ++ n) = false →
        stepLine t st ("NAME:".toList ++ n) =
          .cont ⟨st.inside, st.collected, n⟩) ∧
    (∀ (t : List Char) (st : ScanSt), st.inside = true →
        stepLine t st ("---END---".toList) =
          if st.current_name = t then .found st.collected
          else .cont ⟨false, st.collected, st.current_name⟩) := by
  exact ⟨fun n t st h => stepLine_name t st h,
    fun t st h => stepLine_end_std t st h⟩

/-- C7 witness: the colon-containing name `a:b` is captured verbatim, and
a name differing from the target only in letter case does not match at
the end marker. -/
theorem c7_amended_name_capture_exact_witness :
    stepLine ("x".toList) ⟨true, [], []⟩ ("NAME:a:b".toList) =
        .cont ⟨true, [], "a:b".toList⟩ ∧
      stepLine ("file".toList) ⟨true, [5], "File".toList⟩ ("---END---".toList) =
        .cont ⟨false, [5], "File".toList⟩ := by
  constructor
  · exact c7_amended_name_capture_exact.1 ("a:b".toList) ("x".toList)
      ⟨true, [], []⟩ (by decide)
  · rw [c7_amended_name_capture_exact.2 ("file".toList)
      ⟨true, [5], "File".toList⟩ rfl]
    decide

/-- C8 counterexample: the line `"XENTRYX"` is neither variant's start
marker, yet it makes the decoder reset the buffer and name and transition
to the inside state, because the code tests for `ENTRY` as a substring of
the line. -/
theorem c8_reset_on_non_marker_line :
    ("XENTRYX".toList ≠ "---ENTRY---".toList ∧
      "XENTRYX".toList ≠ "###ENTRY###".toList) ∧
      stepLine ([] : List Char) ⟨false, [7], "q".toList⟩ ("XENTRYX".toList) =
        .cont ⟨true, [], []⟩ := by
  refine ⟨⟨by decide, by decide⟩, by decide⟩

/-- C8 amended: the decoder resets the accumulation buffer and current
name and transitions to the inside state exactly on lines containing the
substring `ENTRY` — which includes both variants' start markers but also
any other line containing it — and no `ENTRY`-free line can move the
decoder from the outside state to the inside state. -/
theorem c8_amended_reset_iff_entry_substring
    (t : List Char) (st : ScanSt) (l : List Char) :
    (hasInfixL ("ENTRY".toList) l = true →
        stepLine t st l = .cont ⟨true, [], []⟩) ∧
    (hasInfixL ("ENTRY".toList) l = false → st.inside = false →
        ∀ st', stepLine t st l = .cont st' → st'.inside = false) := by
  constructor
  · intro h
    exact stepLine_entry t st h
  · intro hE hin st' hstep
    by_cases hN : hasPrefixL ("NAME:".toList) l = true
    · rw [stepLine_name0 t st hE hN] at hstep
      cases hstep
      exact hin
    · have hN' : hasPrefixL ("NAME:".toList) l = false := by simpa using hN
      by_cases hD : hasPrefixL ("DATA:".toList) l = true
      · rw [stepLine_data0 t st hE hN' hD] at hstep
        cases hstep
        exact hin
      · have hD' : hasPrefixL ("DATA:".toList) l = false := by simpa using hD
        by_cases hX : hasPrefixL ("[HEX]".toList) l = true
        · rw [stepLine_hex0 t st hE hN' hD' hX] at hstep
          cases hstep
          exact hin
        · have hX' : hasPrefixL ("[HEX]".toList) l = false := by simpa using hX
          rw [stepLine_default0 t st hE hN' hD' hX' hin] at hstep
          cases hstep
          exact hin

/-- C8 witness: the Quantum start marker resets the state, and the
`ENTRY`-free line `"hello"` leaves an outside-state decoder outside. -/
theorem c8_amended_reset_iff_entry_substring_witness :
    stepLine ("t".toList) ⟨false, [1], "n".toList⟩ ("###ENTRY###".toList) =
        .cont ⟨true, [], []⟩ ∧
      (stepLine ("t".toList) ⟨false, [1], "n".toList⟩ ("hello".toList) =
          .cont ⟨false, [1], "n".toList⟩) := by
  constructor
  · exact (c8_amended_reset_iff_entry_substring ("t".toList)
      ⟨false, [1], "n".toList⟩ ("###ENTRY###".toList)).1 (by decide)
  · have hout := (c8_amended_reset_iff_entry_substring ("t".toList)
      ⟨false, [1], "n".toList⟩ ("hello".toList)).2 (by decide) rfl
    decide

/-- C9: appending an entry writes one complete block after the existing
archive content and never reads, rewrites or removes an existing byte:
the archive after the call is the prior content followed by the block the
same call would write to an empty (absent) file. -/
theorem c9_append_only (file n : List Char) (d : List Nat) (q : Bool) :
    save_to_db file n d q = file ++ save_to_db [] n d q :=
  save_to_db_frame file n d q

/-- C10: payload bytes accumulated while the decoder is outside an entry
never appear in the payload of a successful extraction: starting the scan
outside with any buffer and name contents yields the same successful
result as starting with an empty buffer, because both variants' start
markers (and every other `ENTRY`-containing line) clear the buffer and
name before the decoder can reach a matching end marker. -/
theorem c10_outside_bytes_never_output :
    (∀ (t : List Char) (ls : List (List Char)) (c₁ : List Nat) (n₁ : List Char)
        (c₂ : List Nat) (n₂ : List Char) (p : List Nat),
        runScan t ls ⟨false, c₁, n₁⟩ = .found p →
        runScan t ls ⟨false, c₂, n₂⟩ = .found p) ∧
    (∀ (t : List Char) (st : ScanSt),
        stepLine t st ("---ENTRY---".toList) = .cont ⟨true, [], []⟩ ∧
        stepLine t st ("###ENTRY###".toList) = .cont ⟨true, [], []⟩) := by
  constructor
  · intro t ls c₁ n₁ c₂ n₂ p h
    exact runScan_outside_indep t ls c₁ n₁ c₂ n₂ p h
  · intro t st
    exact ⟨stepLine_entry t st (by decide), stepLine_entry t st (by decide)⟩

/-- C10 witness: a scan that starts outside with a polluted buffer
extracts the same payload `[10]` as one that starts with an empty
buffer. -/
theorem c10_outside_bytes_never_output_witness :
    runScan ("x".toList)
        ["DATA: 99".toList, "---ENTRY---".toList, "NAME:x".toList,
          "DATA: 0A".toList, "---END---".toList]
        ⟨false, [153], "zz".toList⟩ = .found [10] ∧
      runScan ("x".toList)
        ["DATA: 99".toList, "---ENTRY---".toList, "NAME:x".toList,
          "DATA: 0A".toList, "---END---".toList]
        ⟨false, [], []⟩ = .found [10] := by
  have h1 : runScan ("x".toList)
      ["DATA: 99".toList, "---ENTRY---".toList, "NAME:x".toList,
        "DATA: 0A".toList, "---END---".toList]
      ⟨false, [153], "zz".toList⟩ = .found [10] := by decide
  exact ⟨h1, c10_outside_bytes_never_output.1 ("x".toList) _ [153] ("zz".toList)
    [] [] [10] h1⟩

end Catch
